import Mathlib

/-!
# Design-AI backend (`src/backend/app.js`): the structured review pipeline

A shallow embedding of the `/review` route of the Express backend and of the
parts of `zod` and `@langchain/core` it is built from, followed by theorems
about the review schema, the prompt template, the response-text selection and
the handler's control flow.

Conventions of the embedding:
* JavaScript values are `JsVal`; a number is finite and carried in `ℚ` by the
  value of the decimal text that `JSON.stringify` writes for it and that
  `JSON.parse` reads back to it; rounding to a double of a decimal text with
  more digits is not modelled (the bounds `0` and `10` are doubles, so the
  comparison with them is the same on both);
* the libraries are modelled as `zod` 3 and `@langchain/core` 0.3: the
  structured output parser unwraps a markdown fence, escapes line feeds inside
  quoted text, calls `JSON.parse` and then the schema;
* text is `String`, and the scanning functions work on its `List Char`;
* a call that may throw returns `Except JsError _`;
* the effects of the handler (LLM call, parser call, response) are recorded
  in an event trace.
-/

namespace DesignAI

/-! ## JavaScript values -/

/-- JavaScript values that reach the handler: what `JSON.parse` produces,
plus `undefined` (the value of a missing property). -/
inductive JsVal where
  | undefined
  | null
  | bool (b : Bool)
  | num (x : ℚ)
  | str (s : String)
  | arr (xs : List JsVal)
  | obj (fields : List (String × JsVal))

instance : Inhabited JsVal := ⟨JsVal.undefined⟩

namespace JsVal

/-- Own-property read `o[key]` on an object's field list. -/
def lookup : List (String × JsVal) → String → JsVal
  | [], _ => undefined
  | (k, v) :: rest, key => if k = key then v else lookup rest key

/-- Property read `v[key]` for a string key; `undefined` where the value has
no such own property. -/
def get (v : JsVal) (key : String) : JsVal :=
  match v with
  | obj fields => lookup fields key
  | _ => undefined

end JsVal

/-! ## zod: parsed types, issues and the schema combinators used by app.js -/

/-- The result of zod's `getParsedType` on the values of the model. -/
inductive ZodParsedType where
  | undefined | null | boolean | number | string | array | object
  deriving DecidableEq, Repr

/-- The `getParsedType` function of zod. -/
def getParsedType : JsVal → ZodParsedType
  | .undefined => .undefined
  | .null => .null
  | .bool _ => .boolean
  | .num _ => .number
  | .str _ => .string
  | .arr _ => .array
  | .obj _ => .object

/-- One segment of an issue path: an object key or an array index. -/
inductive PathSeg where
  | key (k : String)
  | idx (i : Nat)
  deriving DecidableEq, Repr

/-- The issue codes the review schema can raise, with the data zod attaches:
`invalid_type` (expected and received type), `too_small` and `too_big`
(the kind of value and the inclusive bound). -/
inductive ZodIssueCode where
  | invalid_type (expected received : ZodParsedType)
  | too_small (type : ZodParsedType) (minimum : ℚ)
  | too_big (type : ZodParsedType) (maximum : ℚ)
  deriving DecidableEq

/-- A zod issue: its code and the path of the offending field. -/
structure ZodIssue where
  code : ZodIssueCode
  path : List PathSeg
  deriving DecidableEq

/-- A zod schema, by what its `_parse` does at a path: the parsed output, or
every issue found (zod keeps validating after an issue and reports them all). -/
abbrev ZodType := List PathSeg → JsVal → Except (List ZodIssue) JsVal

/-- Issues of a parse result (none when it succeeded). -/
def issuesOf : Except (List ZodIssue) JsVal → List ZodIssue
  | .ok _ => []
  | .error is => is

/-- The `describe` method: metadata only, validation is unchanged. -/
def ZodType.describe (t : ZodType) (_description : String) : ZodType := t

/-- A number schema under construction: the bounds set by `min` and `max`
(checked in this order, the order app.js adds them). -/
structure ZodNumber where
  minValue : Option ℚ := none
  maxValue : Option ℚ := none

/-- An array schema under construction: element schema and length bounds. -/
structure ZodArray where
  element : ZodType
  minLength : Option Nat := none
  maxLength : Option Nat := none

namespace z

/-- The schema `z.string()`: accepts every string, the empty one included. -/
def string : ZodType := fun path v =>
  match v with
  | .str s => .ok (.str s)
  | _ => .error [⟨.invalid_type .string (getParsedType v), path⟩]

/-- The schema builder `z.number()`. -/
def number : ZodNumber := {}

/-- The schema builder `z.array(element)`. -/
def array (element : ZodType) : ZodArray := { element := element }

/-- Parse the elements of an array, each at its index. -/
def parseElements (element : ZodType) (path : List PathSeg) :
    Nat → List JsVal → List (Except (List ZodIssue) JsVal)
  | _, [] => []
  | i, x :: xs => element (path ++ [.idx i]) x :: parseElements element path (i + 1) xs

/-- Parse the keys of an object shape against the fields of the input. -/
def parseShape (path : List PathSeg) (fields : List (String × JsVal)) :
    List (String × ZodType) → List (String × Except (List ZodIssue) JsVal)
  | [] => []
  | (k, t) :: rest =>
      (k, t (path ++ [.key k]) (JsVal.lookup fields k)) :: parseShape path fields rest

/-- The output object: a key is set when its parsed value is not `undefined`. -/
def outputFields : List (String × Except (List ZodIssue) JsVal) → List (String × JsVal)
  | [] => []
  | (_, .error _) :: rest => outputFields rest
  | (_, .ok .undefined) :: rest => outputFields rest
  | (k, .ok v) :: rest => (k, v) :: outputFields rest

/-- The values of successfully parsed elements. -/
def outputElems : List (Except (List ZodIssue) JsVal) → List JsVal
  | [] => []
  | .ok v :: rest => v :: outputElems rest
  | .error _ :: rest => outputElems rest

/-- The schema `z.object(shape)` (default mode: unknown keys are stripped).
A non-object is one `invalid_type` issue; otherwise every key of the shape is
parsed and the issues of all of them are reported together. -/
def object (shape : List (String × ZodType)) : ZodType := fun path v =>
  match v with
  | .obj fields =>
      let results := parseShape path fields shape
      let issues := (results.map (fun r => issuesOf r.2)).flatten
      if issues.isEmpty then .ok (.obj (outputFields results)) else .error issues
  | _ => .error [⟨.invalid_type .object (getParsedType v), path⟩]

end z

namespace ZodNumber

/-- The `min` method of a number schema: inclusive lower bound. -/
def min (s : ZodNumber) (value : ℚ) : ZodNumber := { s with minValue := some value }

/-- The `max` method of a number schema: inclusive upper bound. -/
def max (s : ZodNumber) (value : ℚ) : ZodNumber := { s with maxValue := some value }

/-- Issue of the `min` check on `x`, if it fails. -/
def minIssue (s : ZodNumber) (path : List PathSeg) (x : ℚ) : List ZodIssue :=
  match s.minValue with
  | some m => if x < m then [⟨.too_small .number m, path⟩] else []
  | none => []

/-- Issue of the `max` check on `x`, if it fails. -/
def maxIssue (s : ZodNumber) (path : List PathSeg) (x : ℚ) : List ZodIssue :=
  match s.maxValue with
  | some m => if x > m then [⟨.too_big .number m, path⟩] else []
  | none => []

/-- Parsing with a number schema: a non-number is `invalid_type`; on a number
every check runs and each failing one adds its issue. -/
def parse (s : ZodNumber) : ZodType := fun path v =>
  match v with
  | .num x =>
      let issues := s.minIssue path x ++ s.maxIssue path x
      if issues.isEmpty then .ok (.num x) else .error issues
  | _ => .error [⟨.invalid_type .number (getParsedType v), path⟩]

instance : Coe ZodNumber ZodType := ⟨parse⟩

end ZodNumber

namespace ZodArray

/-- The `min` method of an array schema: least number of elements. -/
def min (s : ZodArray) (n : Nat) : ZodArray := { s with minLength := some n }

/-- The `max` method of an array schema: greatest number of elements. -/
def max (s : ZodArray) (n : Nat) : ZodArray := { s with maxLength := some n }

/-- Issue of the minimum-length check, if it fails. -/
def minIssue (s : ZodArray) (path : List PathSeg) (len : Nat) : List ZodIssue :=
  match s.minLength with
  | some m => if len < m then [⟨.too_small .array m, path⟩] else []
  | none => []

/-- Issue of the maximum-length check, if it fails. -/
def maxIssue (s : ZodArray) (path : List PathSeg) (len : Nat) : List ZodIssue :=
  match s.maxLength with
  | some m => if len > m then [⟨.too_big .array m, path⟩] else []
  | none => []

/-- Parsing with an array schema: a non-array is `invalid_type`; on an array
the length checks run, then every element is parsed, and all issues are kept. -/
def parse (s : ZodArray) : ZodType := fun path v =>
  match v with
  | .arr xs =>
      let results := z.parseElements s.element path 0 xs
      let issues := s.minIssue path xs.length ++ s.maxIssue path xs.length
        ++ (results.map issuesOf).flatten
      if issues.isEmpty then .ok (.arr (z.outputElems results)) else .error issues
  | _ => .error [⟨.invalid_type .array (getParsedType v), path⟩]

instance : Coe ZodArray ZodType := ⟨parse⟩

end ZodArray

/-! ## The review schema (app.js, lines 18-31) -/

/-- The `scores` sub-schema of `reviewSchema`. -/
def scoresSchema : ZodType :=
  z.object [
    ("visual_hierarchy", ((z.number.min 0).max 10 : ZodNumber)),
    ("typography", ((z.number.min 0).max 10 : ZodNumber)),
    ("color", ((z.number.min 0).max 10 : ZodNumber)),
    ("accessibility", ((z.number.min 0).max 10 : ZodNumber)),
    ("usability", ((z.number.min 0).max 10 : ZodNumber)),
    ("emotional_tone", z.string.describe "Single word or short phrase")
  ]

/-- The schema `reviewSchema` of app.js. -/
def reviewSchema : ZodType :=
  z.object [
    ("summary", z.string.describe "One paragraph high-level critique"),
    ("scores", scoresSchema),
    ("product_value", z.string.describe "How design supports business/product value"),
    ("priority_fixes", (((z.array z.string).min 3).max 7 : ZodArray)),
    ("suggestions", (((z.array z.string).min 3).max 10 : ZodArray))
  ]

/-- The result `reviewSchema.parseAsync(candidate)`: parsing at the root path. -/
def reviewSchema.validate (candidate : JsVal) : Except (List ZodIssue) JsVal :=
  reviewSchema [] candidate

/-! ## Text scanning used by `StructuredOutputParser.parse` -/

/-- White space of the regular-expression class `\s` and of the string method
`trim`: the ECMAScript WhiteSpace and LineTerminator code points. -/
def isJsSpace (c : Char) : Bool :=
  let n := c.toNat
  n = 0x09 || n = 0x0A || n = 0x0B || n = 0x0C || n = 0x0D || n = 0x20 || n = 0xA0 ||
  n = 0x1680 || (0x2000 ≤ n && n ≤ 0x200A) || n = 0x2028 || n = 0x2029 || n = 0x202F ||
  n = 0x205F || n = 0x3000 || n = 0xFEFF

/-- Line terminators: the characters the regular-expression dot does not match. -/
def isLineTerminator (c : Char) : Bool :=
  let n := c.toNat
  n = 0x0A || n = 0x0D || n = 0x2028 || n = 0x2029

/-- The string method `trim` on a character list. -/
def jsTrim (cs : List Char) : List Char :=
  ((cs.dropWhile isJsSpace).reverse.dropWhile isJsSpace).reverse

/-- The three backticks of a markdown fence. -/
def fence : List Char := "```".data

/-- The lazy group `([\s\S]*?)` followed by a fence: the text before the first
fence of the input, if there is a fence. -/
def uptoFence : List Char → Option (List Char)
  | [] => none
  | c :: rest =>
      if fence.isPrefixOf (c :: rest) then some []
      else (uptoFence rest).map (c :: ·)

/-- Skip an optional `json` tag: the group `(?:json)?`. -/
def dropJsonTag (cs : List Char) : List Char :=
  if "json".data.isPrefixOf cs then cs.drop 4 else cs

/-- Group 1 of the match of the anchored pattern: an opening fence at the start
of the text, an optional `json`, white space, the captured text, a fence. -/
def matchFenceAtStart (cs : List Char) : Option (List Char) :=
  if fence.isPrefixOf cs then uptoFence ((dropJsonTag (cs.drop 3)).dropWhile isJsSpace)
  else none

/-- Group 1 of the leftmost match of the unanchored pattern (a fence tagged
`json` anywhere in the text, white space, the captured text, a fence). -/
def matchJsonFence : List Char → Option (List Char)
  | [] => none
  | c :: rest =>
      if (fence ++ "json".data).isPrefixOf (c :: rest) then
        uptoFence (((c :: rest).drop 7).dropWhile isJsSpace)
      else matchJsonFence rest

/-- The JavaScript `a || b` on optional text: absent and empty text are falsy. -/
def orElseText (a : Option (List Char)) (b : List Char) : List Char :=
  match a with
  | some (c :: cs) => c :: cs
  | _ => b

/-- The payload handed on by the parser: group 1 of the anchored fence
pattern, else group 1 of the tagged fence pattern, else the trimmed text. -/
def extractPayload (text : List Char) : List Char :=
  let trimmedText := jsTrim text
  orElseText (matchFenceAtStart trimmedText) (orElseText (matchJsonFence trimmedText) trimmedText)

/-- The body of a quoted run for the pattern of the escaping step, scanned
after the opening quote: characters other than quote and backslash, and
backslash pairs whose second character is not a line terminator, up to the
closing quote. Gives the body and the text after the closing quote. -/
def scanQuoted : List Char → Option (List Char × List Char)
  | [] => none
  | c :: rest =>
      if c = '"' then some ([], rest)
      else if c = '\\' then
        match rest with
        | [] => none
        | e :: rest2 =>
            if isLineTerminator e then none
            else (scanQuoted rest2).map (fun r => (c :: e :: r.1, r.2))
      else (scanQuoted rest).map (fun r => (c :: r.1, r.2))

/-- The inner replacement: every line feed becomes backslash, `n`. -/
def escapeLineFeeds : List Char → List Char
  | [] => []
  | c :: rest => if c = '\n' then '\\' :: 'n' :: escapeLineFeeds rest else c :: escapeLineFeeds rest

/-- The global replacement over quoted runs: each match of the pattern is
rewritten with its line feeds escaped; the scan resumes after the match, or
at the next character where there is no match. -/
def escapeQuotedAux : Nat → List Char → List Char
  | 0, cs => cs
  | _, [] => []
  | fuel + 1, c :: rest =>
      if c = '"' then
        match scanQuoted rest with
        | some (body, after) => '"' :: (escapeLineFeeds body ++ '"' :: escapeQuotedAux fuel after)
        | none => c :: escapeQuotedAux fuel rest
      else c :: escapeQuotedAux fuel rest

/-- The escaping step of the parser: quoted runs get their line feeds escaped,
then every remaining line feed is removed. -/
def escapeJson (json : List Char) : List Char :=
  (escapeQuotedAux json.length json).filter (fun c => c != '\n')

/-! ## JSON.parse (ECMAScript JSON grammar) -/

/-- JSON white space: tab, line feed, carriage return, space. -/
def isJsonWs (c : Char) : Bool :=
  c = ' ' || c = '\t' || c = '\n' || c = '\r'

/-- Skip JSON white space. -/
def skipWs (cs : List Char) : List Char := cs.dropWhile isJsonWs

/-- Decimal digit test. -/
def isDigit (c : Char) : Bool := 48 ≤ c.toNat && c.toNat ≤ 57

/-- Value of a hexadecimal digit. -/
def hexVal (c : Char) : Option Nat :=
  let n := c.toNat
  if 48 ≤ n ∧ n ≤ 57 then some (n - 48)
  else if 97 ≤ n ∧ n ≤ 102 then some (n - 87)
  else if 65 ≤ n ∧ n ≤ 70 then some (n - 55)
  else none

/-- Value of four hexadecimal digits. -/
def hex4 (a b c d : Char) : Option Nat :=
  match hexVal a, hexVal b, hexVal c, hexVal d with
  | some x, some y, some z, some w => some (((x * 16 + y) * 16 + z) * 16 + w)
  | _, _, _, _ => none

/-- The character a single-character escape stands for. -/
def unescape (e : Char) : Option Char :=
  if e = '"' then some '"'
  else if e = '\\' then some '\\'
  else if e = '/' then some '/'
  else if e = 'b' then some (Char.ofNat 8)
  else if e = 'f' then some (Char.ofNat 12)
  else if e = 'n' then some '\n'
  else if e = 'r' then some '\r'
  else if e = 't' then some '\t'
  else none

/-- A JSON string after its opening quote: the decoded characters and the text
after the closing quote. Raw control characters are not allowed. An escape
that denotes a UTF-16 surrogate code unit has no `Char`; such text is outside
the model and is rejected. -/
def parseStringBody : List Char → Option (List Char × List Char)
  | [] => none
  | c :: rest =>
      if c = '"' then some ([], rest)
      else if c = '\\' then
        match rest with
        | [] => none
        | e :: rest2 =>
            if e = 'u' then
              match rest2 with
              | a :: b :: c2 :: d :: rest3 =>
                  match hex4 a b c2 d with
                  | some n =>
                      if 0xD800 ≤ n ∧ n ≤ 0xDFFF then none
                      else (parseStringBody rest3).map (fun r => (Char.ofNat n :: r.1, r.2))
                  | none => none
              | _ => none
            else
              match unescape e with
              | some ch => (parseStringBody rest2).map (fun r => (ch :: r.1, r.2))
              | none => none
      else if c.toNat < 0x20 then none
      else (parseStringBody rest).map (fun r => (c :: r.1, r.2))

/-- Value of a run of decimal digits. -/
def digitsVal (ds : List Char) : Nat :=
  ds.foldl (fun acc d => 10 * acc + (d.toNat - 48)) 0

/-- The integer part of a JSON number: a single `0`, or digits not starting
with `0`. Gives the digits and the rest. -/
def parseInt (cs : List Char) : Option (List Char × List Char) :=
  match cs with
  | [] => none
  | c :: rest =>
      if c = '0' then some ([c], rest)
      else if isDigit c then some (c :: rest.takeWhile isDigit, rest.dropWhile isDigit)
      else none

/-- The optional fraction of a JSON number: a dot and at least one digit. -/
def parseFrac (cs : List Char) : Option (List Char × List Char) :=
  match cs with
  | '.' :: rest =>
      if (rest.takeWhile isDigit).isEmpty then none
      else some (rest.takeWhile isDigit, rest.dropWhile isDigit)
  | _ => some ([], cs)

/-- The optional exponent of a JSON number: `e` or `E`, a sign, digits. -/
def parseExp (cs : List Char) : Option (Int × List Char) :=
  let digitsOf (neg : Bool) (r : List Char) : Option (Int × List Char) :=
    if (r.takeWhile isDigit).isEmpty then none
    else
      let n : Int := digitsVal (r.takeWhile isDigit)
      some (if neg then -n else n, r.dropWhile isDigit)
  match cs with
  | c :: rest =>
      if c = 'e' || c = 'E' then
        match rest with
        | s :: rest2 =>
            if s = '-' then digitsOf true rest2
            else if s = '+' then digitsOf false rest2
            else digitsOf false rest
        | [] => none
      else some (0, cs)
  | [] => some (0, cs)

/-- A JSON number, with the exact value of its decimal text (no rounding to a
double). -/
def parseNumber (cs : List Char) : Option (ℚ × List Char) :=
  let neg := cs.head? = some '-'
  let cs1 := if neg then cs.drop 1 else cs
  match parseInt cs1 with
  | none => none
  | some (ip, r1) =>
      match parseFrac r1 with
      | none => none
      | some (fp, r2) =>
          match parseExp r2 with
          | none => none
          | some (e, r3) =>
              let m : ℚ := (digitsVal ip : ℚ) + (digitsVal fp : ℚ) / (10 : ℚ) ^ fp.length
              let x : ℚ := m * (10 : ℚ) ^ e
              some (if neg then -x else x, r3)

/-- Define property `key` of an object under construction: a repeated key
keeps its place and takes the later value. -/
def setField : List (String × JsVal) → String → JsVal → List (String × JsVal)
  | [], key, v => [(key, v)]
  | (k, w) :: rest, key, v =>
      if k = key then (k, v) :: rest else (k, w) :: setField rest key v

mutual

/-- A JSON value at the head of the input (no leading white space). -/
def parseValue : Nat → List Char → Option (JsVal × List Char)
  | 0, _ => none
  | fuel + 1, cs =>
      match cs with
      | [] => none
      | c :: rest =>
          if c = '"' then
            (parseStringBody rest).map (fun r => (JsVal.str (String.mk r.1), r.2))
          else if c = '[' then
            match skipWs rest with
            | [] => none
            | d :: rest2 =>
                if d = ']' then some (JsVal.arr [], rest2)
                else (parseElements fuel (d :: rest2)).map (fun r => (JsVal.arr r.1, r.2))
          else if c = '{' then
            match skipWs rest with
            | [] => none
            | d :: rest2 =>
                if d = '}' then some (JsVal.obj [], rest2)
                else (parseMembers fuel [] (d :: rest2)).map (fun r => (JsVal.obj r.1, r.2))
          else if "true".data.isPrefixOf cs then some (JsVal.bool true, cs.drop 4)
          else if "false".data.isPrefixOf cs then some (JsVal.bool false, cs.drop 5)
          else if "null".data.isPrefixOf cs then some (JsVal.null, cs.drop 4)
          else (parseNumber cs).map (fun r => (JsVal.num r.1, r.2))

/-- The elements of a non-empty array, up to and including the bracket. -/
def parseElements : Nat → List Char → Option (List JsVal × List Char)
  | 0, _ => none
  | fuel + 1, cs =>
      match parseValue fuel cs with
      | none => none
      | some (v, rest) =>
          match skipWs rest with
          | [] => none
          | d :: rest2 =>
              if d = ',' then
                (parseElements fuel (skipWs rest2)).map (fun r => (v :: r.1, r.2))
              else if d = ']' then some ([v], rest2)
              else none

/-- The members of a non-empty object, up to and including the brace; `acc`
holds the properties defined so far. -/
def parseMembers : Nat → List (String × JsVal) → List Char →
    Option (List (String × JsVal) × List Char)
  | 0, _, _ => none
  | fuel + 1, acc, cs =>
      match cs with
      | [] => none
      | q :: rest =>
          if q = '"' then
            match parseStringBody rest with
            | none => none
            | some (key, rest1) =>
                match skipWs rest1 with
                | [] => none
                | colon :: rest2 =>
                    if colon = ':' then
                      match parseValue fuel (skipWs rest2) with
                      | none => none
                      | some (v, rest3) =>
                          match skipWs rest3 with
                          | [] => none
                          | d :: rest4 =>
                              if d = ',' then
                                parseMembers fuel (setField acc (String.mk key) v) (skipWs rest4)
                              else if d = '}' then
                                some (setField acc (String.mk key) v, rest4)
                              else none
                    else none
          else none

end

/-- The function `JSON.parse`: one JSON value with optional white space around
it, or failure (a `SyntaxError`). -/
def JSON.parse (text : List Char) : Option JsVal :=
  match parseValue (text.length + 1) (skipWs text) with
  | some (v, rest) => if (skipWs rest).isEmpty then some v else none
  | none => none

/-! ## Errors and the structured output parser (app.js, line 34) -/

/-- Thrown values: a generic error with its message, the `TypeError` of a
method call on a value without that method, the `SyntaxError` of `JSON.parse`,
a `ZodError` with all its issues, and the `OutputParserException` of the
parser, which carries the offending text and wraps the cause. -/
inductive JsError where
  | error (message : String)
  | typeError
  | syntaxError
  | zodError (issues : List ZodIssue)
  | outputParserException (text : JsVal) (cause : JsError)

/-- The method `parser.parse(text)` of
`StructuredOutputParser.fromZodSchema(reviewSchema)`: trim, take the fenced
payload if there is one, escape line feeds, `JSON.parse`, then validate with
`reviewSchema`; every failure is rethrown as an `OutputParserException`. -/
def parser.parse (text : JsVal) : Except JsError JsVal :=
  match text with
  | .str s =>
      let json := extractPayload s.data
      let escapedJson := escapeJson json
      match JSON.parse escapedJson with
      | none => .error (.outputParserException text .syntaxError)
      | some candidate =>
          match reviewSchema.validate candidate with
          | .ok parsed => .ok parsed
          | .error issues => .error (.outputParserException text (.zodError issues))
  | _ => .error (.outputParserException text .typeError)

/-! ## The prompt template (app.js, lines 37-68) -/

/-- The constant `template` of app.js. -/
def template : String :=
  "\n" ++
  "You are a senior Product/UX design critic.\n" ++
  "Task: Review a UI/graphic design and return ONLY structured JSON.\n" ++
  "\n" ++
  "Design context:\n" ++
  "- File: \"{fileName}\" ({fileType})\n" ++
  "- User brief: \"{prompt}\"\n" ++
  "\n" ++
  "Rules:\n" ++
  "- Be concise but actionable.\n" ++
  "- Consider visual hierarchy, typography, color, accessibility, usability.\n" ++
  "- Include emotional/brand feel and product value alignment.\n" ++
  "- Respond in the exact JSON format described below. No extra text.\n" ++
  "\n" ++
  "{format_instructions}\n"

/-- A node of a parsed f-string template. -/
inductive ParsedTemplateNode where
  | literal (text : List Char)
  | variable (name : List Char)

/-- Bracket test of the template scanner. -/
def isBracket (c : Char) : Bool := c = '{' || c = '}'

/-- The function `parseFString` of the prompt library: doubled brackets are
literal brackets, a bracketed name is a variable, other runs are literals. -/
def parseFString : Nat → List Char → Except JsError (List ParsedTemplateNode)
  | 0, _ => .ok []
  | _, [] => .ok []
  | fuel + 1, c :: rest =>
      if c = '{' ∧ rest.head? = some '{' then
        (parseFString fuel (rest.drop 1)).map (fun ns => .literal ['{'] :: ns)
      else if c = '}' ∧ rest.head? = some '}' then
        (parseFString fuel (rest.drop 1)).map (fun ns => .literal ['}'] :: ns)
      else if c = '{' then
        if rest.contains '}' then
          (parseFString fuel ((rest.dropWhile (fun x => x != '}')).drop 1)).map
            (fun ns => .variable (rest.takeWhile (fun x => x != '}')) :: ns)
        else .error (.error "Unclosed '\x7b' in template.")
      else if c = '}' then .error (.error "Single '\x7d' in template.")
      else
        (parseFString fuel (rest.dropWhile (fun x => !isBracket x))).map
          (fun ns => .literal (c :: rest.takeWhile (fun x => !isBracket x)) :: ns)

/-- Look a variable up in the values of a format call; the inner option is the
value (`none` for a key whose value is `undefined`). -/
def lookupValue : List (String × Option String) → String → Option (Option String)
  | [], _ => none
  | (k, v) :: rest, name => if k = name then some v else lookupValue rest name

/-- The function `interpolateFString` on parsed nodes: literals are copied, a
variable is replaced by its value as text (`undefined` renders as the word
undefined), and a variable without a key in `values` throws. -/
def interpolate (values : List (String × Option String)) :
    List ParsedTemplateNode → Except JsError String
  | [] => .ok ""
  | .literal text :: rest => (interpolate values rest).map (fun r => String.mk text ++ r)
  | .variable name :: rest =>
      match lookupValue values (String.mk name) with
      | some v => (interpolate values rest).map (fun r => v.getD "undefined" ++ r)
      | none => .error (.error ("(f-string) Missing value for input " ++ String.mk name))

/-- Rendering of an f-string template with `values`. -/
def renderTemplate (tpl : String) (values : List (String × Option String)) :
    Except JsError String :=
  match parseFString tpl.length tpl.data with
  | .ok nodes => interpolate values nodes
  | .error e => .error e

/-- The call `promptTpl.format` with the user variables `prompt`, `fileName`
and `fileType`, merged over the partial variable `format_instructions`
(the text `parser.getFormatInstructions()` returned at start-up, a parameter
of the model). -/
def promptTpl.format (formatInstructions : String) (prompt : Option String)
    (fileName fileType : String) : Except JsError String :=
  renderTemplate template
    [("format_instructions", some formatInstructions),
     ("prompt", prompt), ("fileName", some fileName), ("fileType", some fileType)]

/-! ## Response-text selection (app.js, line 80) -/

namespace JsVal

/-- Test for `null` and `undefined`. -/
def isNullish : JsVal → Bool
  | undefined => true
  | null => true
  | _ => false

/-- Optional property read `v?.key` for the keys the handler reads
(`content`, `text`), which only objects can own. -/
def optGet (v : JsVal) (key : String) : JsVal :=
  if v.isNullish then undefined else v.get key

/-- Optional index read `v?.[0]`: the first element of an array, the first
character of a non-empty string, the property `0` of an object. -/
def optFirst (v : JsVal) : JsVal :=
  match v with
  | arr (x :: _) => x
  | str s =>
      match s.data with
      | c :: _ => str (String.mk [c])
      | [] => undefined
  | obj fields => lookup fields "0"
  | _ => undefined

/-- Nullish coalescing `a ?? b`. -/
def orNullish (a b : JsVal) : JsVal := if a.isNullish then b else a

end JsVal

/-- The expression `raw?.content?.[0]?.text ?? (raw?.content ?? "")`. -/
def selectText (raw : JsVal) : JsVal :=
  (((raw.optGet "content").optFirst).optGet "text").orNullish
    ((raw.optGet "content").orNullish (.str ""))

/-! ## The `/review` handler (app.js, lines 71-88) -/

/-- The file object multer puts on the request. -/
structure MulterFile where
  originalname : String
  mimetype : String

/-- The request as the handler reads it: `req.body.prompt` (absent when the
form has no such field) and `req.file` (absent when nothing was uploaded). -/
structure Request where
  prompt : Option String
  file : Option MulterFile

/-- The JSON body of a response: `{ ok: true, result }` or
`{ ok: false, error: err.message }`; the message is represented by the error
it is the message of. -/
inductive ResponseBody where
  | success (result : JsVal)
  | failure (error : JsError)

/-- A response: status code and body. -/
structure Response where
  status : Nat
  body : ResponseBody

/-- The observable effects of a handler run. -/
inductive Event where
  | formatCalled (prompt : Option String) (fileName fileType : String)
  | llmInvoked (finalPrompt : String)
  | parserCalled (text : JsVal)
  | consoleError (err : JsError)
  | responseSent (res : Response)

/-- The collaborators of the handler: `promptTpl.format`, `llm.invoke` (with
the one user message whose content is the argument) and `parser.parse`. -/
structure Deps where
  format : Option String → String → String → Except JsError String
  invoke : String → Except JsError JsVal
  parse : JsVal → Except JsError JsVal

/-- A computation that may throw and that extends the trace of effects. -/
def Eff (α : Type) : Type := List Event → Except JsError α × List Event

instance : Monad Eff where
  pure a := fun tr => (.ok a, tr)
  bind m f := fun tr =>
    match m tr with
    | (.ok a, tr2) => f a tr2
    | (.error e, tr2) => (.error e, tr2)

namespace Eff

/-- Record an effect. -/
def emit (e : Event) : Eff Unit := fun tr => (.ok (), tr ++ [e])

/-- An awaited call: the call is made (and recorded), then it returns its
value or throws. -/
def call {α : Type} (e : Event) (r : Except JsError α) : Eff α := fun tr => (r, tr ++ [e])

/-- The statement `try body catch (err) handler`. -/
def tryCatch (body : Eff Unit) (handler : JsError → Eff Unit) : Eff Unit := fun tr =>
  match body tr with
  | (.ok u, tr2) => (.ok u, tr2)
  | (.error e, tr2) => handler e tr2

end Eff

/-- The JavaScript `value || fallback` on optional text: `undefined` and the
empty string are falsy. -/
def orDefault (value : Option String) (fallback : String) : String :=
  match value with
  | some v => if v = "" then fallback else v
  | none => fallback

/-- The handler of `app.post('/review', ...)`. -/
def reviewHandler (deps : Deps) (req : Request) : Eff Unit :=
  Eff.tryCatch
    (do
      let prompt := req.prompt
      let file := req.file
      let fileName := orDefault (file.map (·.originalname)) "no-file"
      let fileType := orDefault (file.map (·.mimetype)) "unknown"
      let finalPrompt ← Eff.call (.formatCalled prompt fileName fileType)
        (deps.format prompt fileName fileType)
      let raw ← Eff.call (.llmInvoked finalPrompt) (deps.invoke finalPrompt)
      let text := selectText raw
      let parsed ← Eff.call (.parserCalled text) (deps.parse text)
      Eff.emit (.responseSent { status := 200, body := .success parsed }))
    (fun err => do
      Eff.emit (.consoleError err)
      Eff.emit (.responseSent { status := 500, body := .failure err }))

/-- The trace of one handler run. -/
def runHandler (deps : Deps) (req : Request) : List Event :=
  (reviewHandler deps req []).2

/-- The collaborators app.js wires in: the prompt template with the start-up
format instructions, the LLM (a parameter: any function from the prompt to a
response or a thrown error) and the structured output parser. -/
def appDeps (formatInstructions : String) (llm : String → Except JsError JsVal) : Deps :=
  { format := promptTpl.format formatInstructions
    invoke := llm
    parse := parser.parse }

/-- The responses sent in a trace. -/
def responses : List Event → List Response
  | [] => []
  | .responseSent r :: rest => r :: responses rest
  | _ :: rest => responses rest

/-- The prompts the LLM was invoked with in a trace. -/
def llmCalls : List Event → List String
  | [] => []
  | .llmInvoked p :: rest => p :: llmCalls rest
  | _ :: rest => llmCalls rest

/-- Lower-case hexadecimal digit. -/
def hexDigitChar (n : Nat) : Char :=
  if n < 10 then Char.ofNat (48 + n) else Char.ofNat (87 + n)

/-- The text `QuoteJSONString` writes for one character: the two-character
escapes, `\u00XX` for other control characters, the character itself
otherwise. -/
def quoteChar (c : Char) : List Char :=
  if c = '"' then ['\\', '"']
  else if c = '\\' then ['\\', '\\']
  else if c.toNat = 8 then ['\\', 'b']
  else if c.toNat = 9 then ['\\', 't']
  else if c.toNat = 10 then ['\\', 'n']
  else if c.toNat = 12 then ['\\', 'f']
  else if c.toNat = 13 then ['\\', 'r']
  else if c.toNat < 0x20 then
    ['\\', 'u', '0', '0', hexDigitChar (c.toNat / 16), hexDigitChar (c.toNat % 16)]
  else [c]

/-- The escaped characters of a string, without the enclosing quotes. -/
def quoteBody : List Char → List Char
  | [] => []
  | c :: rest => quoteChar c ++ quoteBody rest

/-- The operation `QuoteJSONString`. -/
def quoteJSONString (s : String) : List Char :=
  '"' :: (quoteBody s.data ++ ['"'])

/-- The last `d` decimal digits of `n`, with leading zeros. -/
def fixedDigits : Nat → Nat → List Char
  | 0, _ => []
  | d + 1, n => fixedDigits d (n / 10) ++ [Nat.digitChar (n % 10)]

/-- The number of fraction digits of a decimal number: the least `d` below 24
for which `x * 10 ^ d` is whole (none for a number that is no such decimal). -/
def fractionDigits (x : ℚ) : Option Nat :=
  (List.range 24).find? (fun d => (x.num.natAbs * 10 ^ d) % x.den == 0)

/-- The operation `Number::toString` in plain decimal notation: an optional
minus sign, the digits of the whole part and, for a number that is not whole,
a point and the fraction digits (no trailing zero). A JavaScript number is
represented by the value of this shortest decimal text. Numbers that are
written with an exponent (`10 ^ 21` and more, or below `10 ^ -6` and not zero
in absolute value) are not modelled: such a number has no text here. -/
def numberToString (x : ℚ) : Option (List Char) :=
  match fractionDigits x with
  | none => none
  | some d =>
      let m := x.num.natAbs * 10 ^ d / x.den
      if 10 ^ 21 * 10 ^ d ≤ m ∨ (0 < d ∧ m * 10 ^ 6 < 10 ^ d) then none
      else
        let digits :=
          Nat.toDigits 10 (m / 10 ^ d) ++
            (if d = 0 then [] else '.' :: fixedDigits d (m % 10 ^ d))
        some (if x.num < 0 then '-' :: digits else digits)

/-- Join the parts of an array or object with commas. -/
def joinComma : List (List Char) → List Char
  | [] => []
  | [x] => x
  | x :: y :: rest => x ++ ',' :: joinComma (y :: rest)

mutual

/-- The function `JSON.stringify` without indentation; `none` where no text
is produced (`undefined`, or a number outside `numberToString`). -/
def JSON.stringify : JsVal → Option (List Char)
  | .undefined => none
  | .null => some "null".data
  | .bool b => some (if b then "true".data else "false".data)
  | .num x => numberToString x
  | .str s => some (quoteJSONString s)
  | .arr xs => (stringifyElems xs).map (fun parts => '[' :: (joinComma parts ++ [']']))
  | .obj fields => (stringifyFields fields).map (fun parts => '{' :: (joinComma parts ++ ['}']))

/-- The elements of an array; `undefined` is written as `null`. -/
def stringifyElems : List JsVal → Option (List (List Char))
  | [] => some []
  | .undefined :: rest => (stringifyElems rest).map (fun ps => "null".data :: ps)
  | x :: rest =>
      match JSON.stringify x, stringifyElems rest with
      | some p, some ps => some (p :: ps)
      | _, _ => none

/-- The members of an object; a property whose value is `undefined` is left out. -/
def stringifyFields : List (String × JsVal) → Option (List (List Char))
  | [] => some []
  | (_, .undefined) :: rest => stringifyFields rest
  | (k, v) :: rest =>
      match JSON.stringify v, stringifyFields rest with
      | some p, some ps => some ((quoteJSONString k ++ ':' :: p) :: ps)
      | _, _ => none

end

/-- The `scores` object of a value of the schema's type. -/
structure Scores where
  visual_hierarchy : ℚ
  typography : ℚ
  color : ℚ
  accessibility : ℚ
  usability : ℚ
  emotional_tone : String

/-- A value of the type the schema declares (its fields, before any bound is
checked). -/
structure Review where
  summary : String
  scores : Scores
  product_value : String
  priority_fixes : List String
  suggestions : List String

/-- The JavaScript object of a `Scores`. -/
def Scores.toJs (s : Scores) : JsVal :=
  .obj [("visual_hierarchy", .num s.visual_hierarchy), ("typography", .num s.typography),
        ("color", .num s.color), ("accessibility", .num s.accessibility),
        ("usability", .num s.usability), ("emotional_tone", .str s.emotional_tone)]

/-- The JavaScript object of a `Review`. -/
def Review.toJs (r : Review) : JsVal :=
  .obj [("summary", .str r.summary), ("scores", r.scores.toJs),
        ("product_value", .str r.product_value),
        ("priority_fixes", .arr (r.priority_fixes.map JsVal.str)),
        ("suggestions", .arr (r.suggestions.map JsVal.str))]

/-- A score within the bounds of the schema. -/
def inScoreRange (x : ℚ) : Prop := 0 ≤ x ∧ x ≤ 10

/-- The bounds of the schema on a `Review`. -/
def Review.Valid (r : Review) : Prop :=
  inScoreRange r.scores.visual_hierarchy ∧ inScoreRange r.scores.typography ∧
  inScoreRange r.scores.color ∧ inScoreRange r.scores.accessibility ∧
  inScoreRange r.scores.usability ∧
  (3 ≤ r.priority_fixes.length ∧ r.priority_fixes.length ≤ 7) ∧
  (3 ≤ r.suggestions.length ∧ r.suggestions.length ≤ 10)

/-- The object `sf` holds the fields of `s`. -/
def Scores.ReadFrom (s : Scores) (sf : List (String × JsVal)) : Prop :=
  JsVal.lookup sf "visual_hierarchy" = .num s.visual_hierarchy ∧
  JsVal.lookup sf "typography" = .num s.typography ∧
  JsVal.lookup sf "color" = .num s.color ∧
  JsVal.lookup sf "accessibility" = .num s.accessibility ∧
  JsVal.lookup sf "usability" = .num s.usability ∧
  JsVal.lookup sf "emotional_tone" = .str s.emotional_tone

/-- The object `fields` holds the declared fields of `r` (it may hold other
keys too). -/
def Review.ReadFrom (r : Review) (fields : List (String × JsVal)) : Prop :=
  JsVal.lookup fields "summary" = .str r.summary ∧
  (∃ sf, JsVal.lookup fields "scores" = .obj sf ∧ r.scores.ReadFrom sf) ∧
  JsVal.lookup fields "product_value" = .str r.product_value ∧
  JsVal.lookup fields "priority_fixes" = .arr (r.priority_fixes.map JsVal.str) ∧
  JsVal.lookup fields "suggestions" = .arr (r.suggestions.map JsVal.str)

/-- The file name the handler uses for a request. -/
def fileNameOf (req : Request) : String :=
  orDefault (req.file.map (·.originalname)) "no-file"

/-- The file kind the handler uses for a request. -/
def fileTypeOf (req : Request) : String :=
  orDefault (req.file.map (·.mimetype)) "unknown"

/-- The text of the template before the file name. -/
def templateIntro : String :=
  "\nYou are a senior Product/UX design critic.\n" ++
  "Task: Review a UI/graphic design and return ONLY structured JSON.\n" ++
  "\n" ++
  "Design context:\n" ++
  "- File: \""

/-- The rule lines of the template. -/
def ruleLines : List String :=
  ["- Be concise but actionable.\n",
   "- Consider visual hierarchy, typography, color, accessibility, usability.\n",
   "- Include emotional/brand feel and product value alignment.\n",
   "- Respond in the exact JSON format described below. No extra text.\n"]

/-- The text of the template between the brief and the format instructions. -/
def rulesBlock : String :=
  "\"\n\nRules:\n" ++ String.join ruleLines ++ "\n"

/-- The contextual part of a prompt: everything before the format
instructions, with the file name, the file kind and the brief in place. -/
def promptContext (brief : Option String) (fileName fileType : String) : String :=
  templateIntro ++ fileName ++ "\" (" ++ fileType ++ ")\n- User brief: \"" ++
    brief.getD "undefined" ++ rulesBlock

/-- The keys of the five numeric scores. -/
def scoreKeys : List String :=
  ["visual_hierarchy", "typography", "color", "accessibility", "usability"]

/-- The bounds of the schema read off a JavaScript value: every score is a
number between 0 and 10, `priority_fixes` has 3 to 7 entries and `suggestions`
has 3 to 10 entries. -/
def WithinBounds (v : JsVal) : Prop :=
  (∀ k ∈ scoreKeys, ∃ x, (v.get "scores").get k = .num x ∧ 0 ≤ x ∧ x ≤ 10) ∧
  (∃ xs, v.get "priority_fixes" = .arr xs ∧ 3 ≤ xs.length ∧ xs.length ≤ 7) ∧
  (∃ xs, v.get "suggestions" = .arr xs ∧ 3 ≤ xs.length ∧ xs.length ≤ 10)

/-- A review within all bounds, used as a concrete input. -/
def sampleReview : Review :=
  { summary := "ok"
    scores :=
      { visual_hierarchy := 7, typography := 6, color := 8, accessibility := 5,
        usability := 7, emotional_tone := "calm" }
    product_value := "good"
    priority_fixes := ["a", "b", "c"]
    suggestions := ["x", "y", "z"] }

/-- The sample review with an empty summary and an empty product value. -/
def emptyTextReview : Review :=
  { sampleReview with summary := "", product_value := "" }

/-- The text written for a scores object. -/
def scoresText (t1 t2 t3 t4 t5 : List Char) (tone : String) (rest : List Char) : List Char :=
  '{' :: (quoteJSONString "visual_hierarchy" ++ ':' :: (t1 ++ ',' ::
    (quoteJSONString "typography" ++ ':' :: (t2 ++ ',' ::
    (quoteJSONString "color" ++ ':' :: (t3 ++ ',' ::
    (quoteJSONString "accessibility" ++ ':' :: (t4 ++ ',' ::
    (quoteJSONString "usability" ++ ':' :: (t5 ++ ',' ::
    (quoteJSONString "emotional_tone" ++ ':' :: (quoteJSONString tone ++ '}' :: rest))))))))))))

/-- The text written for a review, given the text of its scores object with
what follows it. -/
def reviewText (r : Review) (scores : List Char → List Char) (rest : List Char) : List Char :=
  '{' :: (quoteJSONString "summary" ++ ':' :: (quoteJSONString r.summary ++ ',' ::
    (quoteJSONString "scores" ++ ':' :: scores (',' ::
    (quoteJSONString "product_value" ++ ':' :: (quoteJSONString r.product_value ++ ',' ::
    (quoteJSONString "priority_fixes" ++ ':' ::
      ('[' :: (joinComma (r.priority_fixes.map quoteJSONString) ++ ']' :: ',' ::
    (quoteJSONString "suggestions" ++ ':' ::
      ('[' :: (joinComma (r.suggestions.map quoteJSONString) ++ ']' :: '}' :: rest))))))))))))

/-- The serialization of the review with empty text fields. -/
def emptyTextSerialization : String :=
  "\x7b\"summary\":\"\",\"scores\":\x7b\"visual_hierarchy\":7,\"typography\":6," ++
  "\"color\":8,\"accessibility\":5,\"usability\":7,\"emotional_tone\":\"calm\"\x7d," ++
  "\"product_value\":\"\",\"priority_fixes\":[\"a\",\"b\",\"c\"]," ++
  "\"suggestions\":[\"x\",\"y\",\"z\"]\x7d"

/-! ## Lemmas on the schema combinators -/

/-- The string schema: success is exactly on strings, which pass unchanged. -/
theorem z_string_ok_iff (path : List PathSeg) (v out : JsVal) :
    z.string path v = .ok out ↔ ∃ s, v = .str s ∧ out = .str s := by
  cases v <;> simp [z.string, eq_comm]

/-- The score schema on a number: the issues are exactly the failed bounds. -/
theorem score_parse_num (path : List PathSeg) (x : ℚ) :
    ((z.number.min 0).max 10).parse path (.num x) =
      if x < 0 then .error [⟨.too_small .number 0, path⟩]
      else if 10 < x then .error [⟨.too_big .number 10, path⟩]
      else .ok (.num x) := by
  by_cases h0 : x < 0
  · have h1 : ¬ x > 10 := by intro h; linarith
    simp [ZodNumber.parse, ZodNumber.min, ZodNumber.max, ZodNumber.minIssue,
      ZodNumber.maxIssue, z.number, h0, h1]
  · by_cases h1 : 10 < x
    · simp [ZodNumber.parse, ZodNumber.min, ZodNumber.max, ZodNumber.minIssue,
        ZodNumber.maxIssue, z.number, h0, h1]
    · simp [ZodNumber.parse, ZodNumber.min, ZodNumber.max, ZodNumber.minIssue,
        ZodNumber.maxIssue, z.number, h0, h1]

/-- The score schema on a non-number: one `invalid_type` issue at the path. -/
theorem score_parse_other (path : List PathSeg) (v : JsVal) (h : ∀ x, v ≠ .num x) :
    ((z.number.min 0).max 10).parse path v =
      .error [⟨.invalid_type .number (getParsedType v), path⟩] := by
  cases v <;> simp_all [ZodNumber.parse]

/-- The score schema: success is exactly on numbers between 0 and 10. -/
theorem score_ok_iff (path : List PathSeg) (v out : JsVal) :
    ((z.number.min 0).max 10).parse path v = .ok out ↔
      ∃ x, v = .num x ∧ inScoreRange x ∧ out = .num x := by
  by_cases hv : ∃ x, v = .num x
  · obtain ⟨x, rfl⟩ := hv
    rw [score_parse_num]
    unfold inScoreRange
    by_cases h0 : x < 0
    · simp [h0]
    · by_cases h1 : 10 < x
      · simp [h0, h1]
      · simp [h0, h1, not_lt.mp h0, not_lt.mp h1, eq_comm]
  · have hv2 : ∀ x, v ≠ .num x := fun x hx => hv ⟨x, hx⟩
    rw [score_parse_other path v hv2]
    constructor
    · intro h; cases h
    · rintro ⟨x, hx, _⟩; exact absurd hx (hv2 x)

/-- Elements that are all strings parse to themselves, without issues. -/
theorem parseElements_strings (path : List PathSeg) (ss : List String) (i : Nat) :
    z.parseElements z.string path i (ss.map JsVal.str) = ss.map (fun s => .ok (.str s)) := by
  induction ss generalizing i with
  | nil => rfl
  | cons s ss ih => simp [z.parseElements, z.string, ih]

/-- The outputs of successfully parsed strings. -/
theorem outputElems_strings (ss : List String) :
    z.outputElems (ss.map (fun s => (.ok (.str s) : Except (List ZodIssue) JsVal))) =
      ss.map JsVal.str := by
  induction ss with
  | nil => rfl
  | cons s ss ih => simp [z.outputElems, ih]

/-- No issues among the parsed elements: every element is a string. -/
theorem strings_of_no_issues (path : List PathSeg) (xs : List JsVal) (i : Nat)
    (h : ((z.parseElements z.string path i xs).map issuesOf).flatten = []) :
    ∃ ss : List String, xs = ss.map JsVal.str := by
  induction xs generalizing i with
  | nil => exact ⟨[], rfl⟩
  | cons x xs ih =>
      simp only [z.parseElements, List.map_cons, List.flatten_cons, List.append_eq_nil] at h
      obtain ⟨ss, hss⟩ := ih (i + 1) h.2
      cases x <;> simp [z.string, issuesOf] at h
      rename_i s
      exact ⟨s :: ss, by simp [hss]⟩

/-- A string-array schema with length bounds: success is exactly on arrays of
strings whose length is within the bounds, which pass unchanged. -/
theorem string_array_ok_iff (a b : Nat) (path : List PathSeg) (v out : JsVal) :
    (((z.array z.string).min a).max b).parse path v = .ok out ↔
      ∃ ss : List String, v = .arr (ss.map JsVal.str) ∧ a ≤ ss.length ∧ ss.length ≤ b ∧
        out = .arr (ss.map JsVal.str) := by
  constructor
  · intro h
    cases v <;> simp only [ZodArray.parse, reduceCtorEq] at h
    rename_i xs
    split at h
    · rename_i hemp
      simp only [List.isEmpty_iff, List.append_eq_nil] at hemp
      obtain ⟨⟨hmin, hmax⟩, hel⟩ := hemp
      obtain ⟨ss, rfl⟩ := strings_of_no_issues _ _ _ hel
      refine ⟨ss, rfl, ?_, ?_, ?_⟩
      · simp only [ZodArray.minIssue, ZodArray.min, ZodArray.max, z.array] at hmin
        split at hmin
        · cases hmin
        · simp_all
      · simp only [ZodArray.maxIssue, ZodArray.min, ZodArray.max, z.array] at hmax
        split at hmax
        · cases hmax
        · simp_all
      · simp only [ZodArray.min, ZodArray.max, z.array, parseElements_strings,
          outputElems_strings] at h
        cases h; rfl
    · cases h
  · rintro ⟨ss, rfl, ha, hb, rfl⟩
    have h1 : ¬ ss.length < a := by omega
    have h2 : ¬ ss.length > b := by omega
    simp [ZodArray.parse, ZodArray.minIssue, ZodArray.maxIssue, ZodArray.min, ZodArray.max,
      z.array, parseElements_strings, outputElems_strings, h1, h2, issuesOf]

/-- The issues of an object schema on an object: those of all its keys, in
the order of the shape. -/
theorem issuesOf_object (shape : List (String × ZodType)) (path : List PathSeg)
    (fields : List (String × JsVal)) :
    issuesOf (z.object shape path (.obj fields)) =
      ((z.parseShape path fields shape).map (fun r => issuesOf r.2)).flatten := by
  simp only [z.object]
  split
  · rename_i h
    simp only [List.isEmpty_iff] at h
    rw [h]; rfl
  · rfl

/-- An object schema on an object succeeds exactly when no key has an issue. -/
theorem object_ok_iff (shape : List (String × ZodType)) (path : List PathSeg)
    (fields : List (String × JsVal)) (out : JsVal) :
    z.object shape path (.obj fields) = .ok out ↔
      ((z.parseShape path fields shape).map (fun r => issuesOf r.2)).flatten = [] ∧
        out = .obj (z.outputFields (z.parseShape path fields shape)) := by
  simp only [z.object]
  split
  · rename_i h
    simp only [List.isEmpty_iff] at h
    simp [h, eq_comm]
  · rename_i h
    simp only [List.isEmpty_iff] at h
    simp [h]

/-- An object schema on a non-object: one `invalid_type` issue at the path. -/
theorem object_error (shape : List (String × ZodType)) (path : List PathSeg) (v : JsVal)
    (h : ∀ fields, v ≠ .obj fields) :
    z.object shape path v = .error [⟨.invalid_type .object (getParsedType v), path⟩] := by
  cases v <;> simp_all [z.object]

/-- A string schema without issues has parsed a string. -/
theorem string_of_no_issue (path : List PathSeg) (v : JsVal)
    (h : issuesOf (z.string path v) = []) : ∃ s, v = .str s := by
  cases v <;> simp [z.string, issuesOf] at h
  exact ⟨_, rfl⟩

/-- A score schema without issues has parsed a number within the bounds. -/
theorem score_of_no_issue (path : List PathSeg) (v : JsVal)
    (h : issuesOf (((z.number.min 0).max 10).parse path v) = []) :
    ∃ x, v = .num x ∧ inScoreRange x := by
  by_cases hv : ∃ x, v = .num x
  · obtain ⟨x, rfl⟩ := hv
    rw [score_parse_num] at h
    refine ⟨x, rfl, ?_⟩
    unfold inScoreRange
    by_cases h0 : x < 0
    · simp [h0, issuesOf] at h
    · by_cases h1 : 10 < x
      · simp [h0, h1, issuesOf] at h
      · exact ⟨not_lt.mp h0, not_lt.mp h1⟩
  · rw [score_parse_other path v (fun x hx => hv ⟨x, hx⟩)] at h
    simp [issuesOf] at h

/-- A bounded string-array schema without issues has parsed an array of
strings whose length is within the bounds. -/
theorem string_array_of_no_issue (a b : Nat) (path : List PathSeg) (v : JsVal)
    (h : issuesOf ((((z.array z.string).min a).max b).parse path v) = []) :
    ∃ ss : List String, v = .arr (ss.map JsVal.str) ∧ a ≤ ss.length ∧ ss.length ≤ b := by
  cases hres : (((z.array z.string).min a).max b).parse path v with
  | ok out =>
      obtain ⟨ss, hv, ha, hb, _⟩ := (string_array_ok_iff a b path v out).mp hres
      exact ⟨ss, hv, ha, hb⟩
  | error is =>
      rw [hres] at h
      simp only [issuesOf] at h
      subst h
      cases v with
      | arr xs =>
          simp only [ZodArray.parse] at hres
          split at hres
          · cases hres
          · rename_i hne
            simp only [Except.error.injEq] at hres
            simp [hres] at hne
      | _ => simp [ZodArray.parse] at hres

/-- The scores schema without issues has parsed an object that holds five
scores within the bounds and a string. -/
theorem scores_of_no_issue (path : List PathSeg) (v : JsVal)
    (h : issuesOf (scoresSchema path v) = []) :
    ∃ sf s, v = .obj sf ∧ Scores.ReadFrom s sf ∧ inScoreRange s.visual_hierarchy ∧
      inScoreRange s.typography ∧ inScoreRange s.color ∧ inScoreRange s.accessibility ∧
      inScoreRange s.usability := by
  by_cases hv : ∃ sf, v = .obj sf
  · obtain ⟨sf, rfl⟩ := hv
    unfold scoresSchema at h
    rw [issuesOf_object] at h
    simp only [z.parseShape, List.map_cons, List.map_nil, List.flatten_cons, List.flatten_nil,
      List.append_eq_nil, ZodType.describe] at h
    obtain ⟨h1, h2, h3, h4, h5, h6, _⟩ := h
    obtain ⟨x1, e1, r1⟩ := score_of_no_issue _ _ h1
    obtain ⟨x2, e2, r2⟩ := score_of_no_issue _ _ h2
    obtain ⟨x3, e3, r3⟩ := score_of_no_issue _ _ h3
    obtain ⟨x4, e4, r4⟩ := score_of_no_issue _ _ h4
    obtain ⟨x5, e5, r5⟩ := score_of_no_issue _ _ h5
    obtain ⟨t, e6⟩ := string_of_no_issue _ _ h6
    exact ⟨sf, ⟨x1, x2, x3, x4, x5, t⟩, rfl, ⟨e1, e2, e3, e4, e5, e6⟩, r1, r2, r3, r4, r5⟩
  · unfold scoresSchema at h
    rw [object_error _ _ _ (fun sf hsf => hv ⟨sf, hsf⟩)] at h
    simp [issuesOf] at h

/-- The scores schema on an object that holds scores within the bounds:
the output is the object of the declared keys. -/
theorem scores_ok (path : List PathSeg) (sf : List (String × JsVal)) (s : Scores)
    (hread : Scores.ReadFrom s sf) (h1 : inScoreRange s.visual_hierarchy)
    (h2 : inScoreRange s.typography) (h3 : inScoreRange s.color)
    (h4 : inScoreRange s.accessibility) (h5 : inScoreRange s.usability) :
    scoresSchema path (.obj sf) = .ok s.toJs := by
  obtain ⟨e1, e2, e3, e4, e5, e6⟩ := hread
  unfold scoresSchema
  rw [object_ok_iff]
  have k1 := fun p => (score_ok_iff p (.num s.visual_hierarchy) _).mpr ⟨_, rfl, h1, rfl⟩
  have k2 := fun p => (score_ok_iff p (.num s.typography) _).mpr ⟨_, rfl, h2, rfl⟩
  have k3 := fun p => (score_ok_iff p (.num s.color) _).mpr ⟨_, rfl, h3, rfl⟩
  have k4 := fun p => (score_ok_iff p (.num s.accessibility) _).mpr ⟨_, rfl, h4, rfl⟩
  have k5 := fun p => (score_ok_iff p (.num s.usability) _).mpr ⟨_, rfl, h5, rfl⟩
  simp [z.parseShape, e1, e2, e3, e4, e5, e6, k1, k2, k3, k4, k5, ZodType.describe, z.string,
    issuesOf, z.outputFields, Scores.toJs]

/-- Validation succeeds exactly on the objects that hold the declared fields
of a review within the bounds; the output is the object of the declared keys. -/
theorem validate_ok_iff (cand out : JsVal) :
    reviewSchema.validate cand = .ok out ↔
      ∃ fields r, cand = .obj fields ∧ Review.ReadFrom r fields ∧ r.Valid ∧ out = r.toJs := by
  constructor
  · intro h
    unfold reviewSchema.validate reviewSchema at h
    by_cases hv : ∃ fields, cand = .obj fields
    · obtain ⟨fields, rfl⟩ := hv
      rw [object_ok_iff] at h
      obtain ⟨hiss, hout⟩ := h
      simp only [z.parseShape, List.map_cons, List.map_nil, List.flatten_cons, List.flatten_nil,
        List.append_eq_nil, ZodType.describe] at hiss
      obtain ⟨h1, h2, h3, h4, h5, _⟩ := hiss
      obtain ⟨sm, e1⟩ := string_of_no_issue _ _ h1
      obtain ⟨sf, s, e2, hread, r1, r2, r3, r4, r5⟩ := scores_of_no_issue _ _ h2
      obtain ⟨pv, e3⟩ := string_of_no_issue _ _ h3
      obtain ⟨pf, e4, b1, b2⟩ := string_array_of_no_issue 3 7 _ _ h4
      obtain ⟨sg, e5, b3, b4⟩ := string_array_of_no_issue 3 10 _ _ h5
      refine ⟨fields, ⟨sm, s, pv, pf, sg⟩, rfl, ⟨e1, ⟨sf, e2, hread⟩, e3, e4, e5⟩,
        ⟨r1, r2, r3, r4, r5, ⟨b1, b2⟩, ⟨b3, b4⟩⟩, ?_⟩
      rw [hout]
      have k4 := fun p => (string_array_ok_iff 3 7 p (.arr (pf.map JsVal.str)) _).mpr
        ⟨pf, rfl, b1, b2, rfl⟩
      have k5 := fun p => (string_array_ok_iff 3 10 p (.arr (sg.map JsVal.str)) _).mpr
        ⟨sg, rfl, b3, b4, rfl⟩
      simp [z.parseShape, e1, e2, e3, e4, e5, ZodType.describe, z.string, z.outputFields,
        Review.toJs, scores_ok _ sf s hread r1 r2 r3 r4 r5, k4, k5]
      rfl
    · rw [object_error _ _ _ (fun f hf => hv ⟨f, hf⟩)] at h
      cases h
  · rintro ⟨fields, r, rfl, ⟨e1, ⟨sf, e2, hread⟩, e3, e4, e5⟩,
      ⟨r1, r2, r3, r4, r5, ⟨b1, b2⟩, ⟨b3, b4⟩⟩, rfl⟩
    unfold reviewSchema.validate reviewSchema
    rw [object_ok_iff]
    have k4 := fun p => (string_array_ok_iff 3 7 p (.arr (r.priority_fixes.map JsVal.str)) _).mpr
      ⟨_, rfl, b1, b2, rfl⟩
    have k5 := fun p => (string_array_ok_iff 3 10 p (.arr (r.suggestions.map JsVal.str)) _).mpr
      ⟨_, rfl, b3, b4, rfl⟩
    simp [z.parseShape, e1, e2, e3, e4, e5, ZodType.describe, z.string, z.outputFields,
      Review.toJs, scores_ok _ sf r.scores hread r1 r2 r3 r4 r5, k4, k5, issuesOf]
    rfl

/-- The object of a review holds the fields of the review. -/
theorem readFrom_toJs (r : Review) :
    ∃ fields, r.toJs = .obj fields ∧ Review.ReadFrom r fields := by
  refine ⟨_, rfl, ?_⟩
  simp [Review.ReadFrom, Scores.ReadFrom, Scores.toJs, JsVal.lookup]

/-- Validation returns the object of a review within the bounds unchanged. -/
theorem validate_toJs (r : Review) (h : r.Valid) :
    reviewSchema.validate r.toJs = .ok r.toJs := by
  obtain ⟨fields, hf, hread⟩ := readFrom_toJs r
  exact (validate_ok_iff _ _).mpr ⟨fields, r, hf, hread, h, rfl⟩

/-! ## The handler's trace -/

/-- The trace of a handler run, by the outcome of its three calls. -/
theorem runHandler_eq (deps : Deps) (req : Request) :
    runHandler deps req =
      match deps.format req.prompt (fileNameOf req) (fileTypeOf req) with
      | .error e =>
          [.formatCalled req.prompt (fileNameOf req) (fileTypeOf req), .consoleError e,
            .responseSent { status := 500, body := .failure e }]
      | .ok finalPrompt =>
          match deps.invoke finalPrompt with
          | .error e =>
              [.formatCalled req.prompt (fileNameOf req) (fileTypeOf req),
                .llmInvoked finalPrompt, .consoleError e,
                .responseSent { status := 500, body := .failure e }]
          | .ok raw =>
              match deps.parse (selectText raw) with
              | .error e =>
                  [.formatCalled req.prompt (fileNameOf req) (fileTypeOf req),
                    .llmInvoked finalPrompt, .parserCalled (selectText raw), .consoleError e,
                    .responseSent { status := 500, body := .failure e }]
              | .ok parsed =>
                  [.formatCalled req.prompt (fileNameOf req) (fileTypeOf req),
                    .llmInvoked finalPrompt, .parserCalled (selectText raw),
                    .responseSent { status := 200, body := .success parsed }] := by
  unfold runHandler reviewHandler fileNameOf fileTypeOf
  cases hf : deps.format req.prompt (orDefault (req.file.map (·.originalname)) "no-file")
      (orDefault (req.file.map (·.mimetype)) "unknown") with
  | error e => simp [Eff.tryCatch, Eff.call, Eff.emit, bind, hf]
  | ok fp =>
      cases hi : deps.invoke fp with
      | error e => simp [Eff.tryCatch, Eff.call, Eff.emit, bind, hf, hi]
      | ok raw =>
          cases hp : deps.parse (selectText raw) with
          | error e => simp [Eff.tryCatch, Eff.call, Eff.emit, bind, hf, hi, hp]
          | ok parsed => simp [Eff.tryCatch, Eff.call, Eff.emit, bind, hf, hi, hp]

/-! ## The rendered prompt -/

set_option maxRecDepth 100000 in
/-- The nodes of the template: four variables between five literal runs. -/
theorem parseFString_template :
    parseFString template.length template.data =
      .ok [.literal templateIntro.data, .variable "fileName".data, .literal "\" (".data,
        .variable "fileType".data, .literal ")\n- User brief: \"".data,
        .variable "prompt".data, .literal rulesBlock.data,
        .variable "format_instructions".data, .literal "\n".data] := by
  rfl

/-- The rendered prompt: the context with the values in place, then the format
instructions, then one line feed. Formatting never throws. -/
theorem format_eq (instr : String) (prompt : Option String) (fileName fileType : String) :
    promptTpl.format instr prompt fileName fileType =
      .ok (promptContext prompt fileName fileType ++ instr ++ "\n") := by
  unfold promptTpl.format renderTemplate
  rw [parseFString_template]
  simp [interpolate, lookupValue, promptContext, Except.map, String.append_assoc]

/-! ## Bounds of accepted values -/

/-- A value that holds the fields of a review within the bounds is within the
bounds as read off the value. -/
theorem withinBounds_of_readFrom (fields : List (String × JsVal)) (r : Review)
    (hread : Review.ReadFrom r fields) (hv : r.Valid) : WithinBounds (.obj fields) := by
  obtain ⟨_, ⟨sf, e2, s1, s2, s3, s4, s5, _⟩, _, e4, e5⟩ := hread
  obtain ⟨r1, r2, r3, r4, r5, ⟨b1, b2⟩, ⟨b3, b4⟩⟩ := hv
  refine ⟨?_, ⟨_, e4, by simpa using b1, by simpa using b2⟩,
    ⟨_, e5, by simpa using b3, by simpa using b4⟩⟩
  intro k hk
  simp only [scoreKeys, List.mem_cons, List.mem_singleton, List.not_mem_nil, or_false] at hk
  simp only [JsVal.get, e2]
  rcases hk with rfl | rfl | rfl | rfl | rfl
  · exact ⟨_, s1, r1.1, r1.2⟩
  · exact ⟨_, s2, r2.1, r2.2⟩
  · exact ⟨_, s3, r3.1, r3.2⟩
  · exact ⟨_, s4, r4.1, r4.2⟩
  · exact ⟨_, s5, r5.1, r5.2⟩

/-- Validation rejects with at least one issue. -/
theorem validate_error_ne_nil (cand : JsVal) (issues : List ZodIssue)
    (h : reviewSchema.validate cand = .error issues) : issues ≠ [] := by
  unfold reviewSchema.validate reviewSchema at h
  cases cand with
  | obj fields =>
      simp only [z.object] at h
      split at h
      · cases h
      · rename_i hne
        simp only [Except.error.injEq] at h
        subst h
        intro hnil
        simp [hnil] at hne
  | _ => simp [z.object] at h; subst h; simp

/-- What the parser returns has passed validation. -/
theorem parser_parse_ok (text out : JsVal) (h : parser.parse text = .ok out) :
    ∃ cand, reviewSchema.validate cand = .ok out := by
  unfold parser.parse at h
  cases text with
  | str s =>
      simp only at h
      split at h
      · cases h
      · rename_i cand _
        split at h
        · rename_i parsed hp
          cases h
          exact ⟨cand, hp⟩
        · cases h
  | _ => simp at h

/-- C1: every candidate that `reviewSchema` accepts has its five scores
between 0 and 10, 3 to 7 priority fixes and 3 to 10 suggestions (and so has
the value returned for it); a candidate that violates one of these bounds is
rejected with issues; and every result the handler sends with `ok: true` is
within the bounds. -/
theorem accepted_results_within_bounds :
    (∀ cand out, reviewSchema.validate cand = .ok out → WithinBounds cand ∧ WithinBounds out) ∧
    (∀ cand, ¬ WithinBounds cand →
      ∃ issues, issues ≠ [] ∧ reviewSchema.validate cand = .error issues) ∧
    (∀ instr llm req res result, res ∈ responses (runHandler (appDeps instr llm) req) →
      res.body = .success result → WithinBounds result) := by
  have key : ∀ cand out, reviewSchema.validate cand = .ok out →
      WithinBounds cand ∧ WithinBounds out := by
    intro cand out h
    obtain ⟨fields, r, rfl, hread, hv, rfl⟩ := (validate_ok_iff _ _).mp h
    refine ⟨withinBounds_of_readFrom fields r hread hv, ?_⟩
    obtain ⟨f2, hf2, hread2⟩ := readFrom_toJs r
    rw [hf2]
    exact withinBounds_of_readFrom f2 r hread2 hv
  refine ⟨key, ?_, ?_⟩
  · intro cand hnot
    cases h : reviewSchema.validate cand with
    | ok out => exact absurd (key cand out h).1 hnot
    | error issues => exact ⟨issues, validate_error_ne_nil cand issues h, rfl⟩
  · intro instr llm req res result hmem hbody
    rw [runHandler_eq] at hmem
    simp only [appDeps] at hmem
    split at hmem
    · simp only [responses, List.mem_singleton] at hmem
      subst hmem
      cases hbody
    · split at hmem
      · simp only [responses, List.mem_singleton] at hmem
        subst hmem
        cases hbody
      · split at hmem
        · simp only [responses, List.mem_singleton] at hmem
          subst hmem
          cases hbody
        · rename_i parsed hp
          simp only [responses, List.mem_singleton] at hmem
          subst hmem
          cases hbody
          obtain ⟨cand, hc⟩ := parser_parse_ok _ _ hp
          exact (key cand _ hc).2

/-! ## Text fields -/

/-- The review with empty text fields is within the bounds. -/
theorem emptyTextReview_valid : emptyTextReview.Valid := by
  simp [Review.Valid, inScoreRange, emptyTextReview, sampleReview]
  norm_num

/-- C3, amended: in every accepted result `summary` and `product_value` are
strings, with no condition on their length: a candidate in which one of them
is missing or not a string is rejected, and the empty string is accepted like
any other text. -/
theorem text_fields_are_strings :
    (∀ cand out, reviewSchema.validate cand = .ok out →
      ∃ s p, cand.get "summary" = .str s ∧ out.get "summary" = .str s ∧
        cand.get "product_value" = .str p ∧ out.get "product_value" = .str p) ∧
    (∀ cand, ((∀ s, cand.get "summary" ≠ .str s) ∨ (∀ p, cand.get "product_value" ≠ .str p)) →
      ∃ issues, issues ≠ [] ∧ reviewSchema.validate cand = .error issues) ∧
    (∀ r : Review, r.Valid → reviewSchema.validate { r with summary := "" }.toJs =
        .ok { r with summary := "" }.toJs ∧
      reviewSchema.validate { r with product_value := "" }.toJs =
        .ok { r with product_value := "" }.toJs) := by
  have key : ∀ cand out, reviewSchema.validate cand = .ok out →
      ∃ s p, cand.get "summary" = .str s ∧ out.get "summary" = .str s ∧
        cand.get "product_value" = .str p ∧ out.get "product_value" = .str p := by
    intro cand out h
    obtain ⟨fields, r, rfl, hread, _, rfl⟩ := (validate_ok_iff _ _).mp h
    obtain ⟨e1, _, e3, _, _⟩ := hread
    exact ⟨r.summary, r.product_value, e1, by simp [Review.toJs, JsVal.get, JsVal.lookup], e3,
      by simp [Review.toJs, JsVal.get, JsVal.lookup]⟩
  refine ⟨key, ?_, ?_⟩
  · intro cand hbad
    cases h : reviewSchema.validate cand with
    | ok out =>
        obtain ⟨s, p, hs, _, hp, _⟩ := key cand out h
        rcases hbad with hb | hb
        · exact absurd hs (hb s)
        · exact absurd hp (hb p)
    | error issues => exact ⟨issues, validate_error_ne_nil cand issues h, rfl⟩
  · intro r hv
    exact ⟨validate_toJs _ hv, validate_toJs _ hv⟩

/-! ## Validation reports every violation -/

/-- C9: the text handed to the parser. (i) When `content` is a sequence whose
first element has a `text` that is not null or undefined, it is that text,
whatever the later elements are (an empty first text is kept). (ii) When
`content` is a string, it is that string, the empty one included. (iii) When
the response or its `content` is null or undefined, it is the empty string. -/
theorem selectText_cases :
    (∀ (fields : List (String × JsVal)) (first : JsVal) (later : List JsVal) (t : JsVal),
      JsVal.lookup fields "content" = .arr (first :: later) → first.optGet "text" = t →
      t.isNullish = false → selectText (.obj fields) = t) ∧
    (∀ (fields : List (String × JsVal)) (s : String),
      JsVal.lookup fields "content" = .str s → selectText (.obj fields) = .str s) ∧
    (∀ raw : JsVal, raw.isNullish = true → selectText raw = .str "") ∧
    (∀ fields : List (String × JsVal), (JsVal.lookup fields "content").isNullish = true →
      selectText (.obj fields) = .str "") := by
  refine ⟨?_, ?_, ?_, ?_⟩
  · intro fields first later t hc ht hn
    have e : (JsVal.obj fields).optGet "content" = .arr (first :: later) := hc
    subst ht
    unfold selectText JsVal.orNullish
    rw [e]
    simp only [JsVal.optFirst, hn]
    rfl
  · intro fields s hc
    have e : (JsVal.obj fields).optGet "content" = .str s := hc
    unfold selectText
    rw [e]
    have h1 : ((JsVal.str s).optFirst).optGet "text" = .undefined := by
      obtain ⟨cs⟩ := s
      cases cs <;> rfl
    rw [h1]
    rfl
  · intro raw hn
    cases raw <;> first | rfl | cases hn
  · intro fields hn
    have e : (JsVal.obj fields).optGet "content" = JsVal.lookup fields "content" := rfl
    unfold selectText
    rw [e]
    cases hc : JsVal.lookup fields "content" <;> first | rfl | (rw [hc] at hn; cases hn)

/-- C9 at a response of two segments whose first text is empty: the empty
text is selected and the second segment is ignored. -/
theorem selectText_cases_witness :
    selectText (.obj [("content",
      .arr [.obj [("type", .str "text"), ("text", .str "")],
            .obj [("type", .str "text"), ("text", .str "later")]])]) = .str "" :=
  selectText_cases.1 _ _ _ _ rfl rfl rfl

/-! ## Control flow of the handler -/

/-- The handler invokes the LLM exactly once, with the rendered prompt. -/
theorem llmCalls_app (instr : String) (llm : String → Except JsError JsVal) (req : Request) :
    llmCalls (runHandler (appDeps instr llm) req) =
      [promptContext req.prompt (fileNameOf req) (fileTypeOf req) ++ instr ++ "\n"] := by
  rw [runHandler_eq]
  simp only [appDeps, format_eq]
  cases llm (promptContext req.prompt (fileNameOf req) (fileTypeOf req) ++ instr ++ "\n") with
  | error e => rfl
  | ok raw =>
      dsimp only
      cases parser.parse (selectText raw) <;> rfl

/-- The first effect of a run is the formatting call with the file name and
kind the handler chose. -/
theorem head_runHandler (deps : Deps) (req : Request) :
    (runHandler deps req).head? =
      some (.formatCalled req.prompt (fileNameOf req) (fileTypeOf req)) := by
  rw [runHandler_eq]
  cases deps.format req.prompt (fileNameOf req) (fileTypeOf req) with
  | error e => rfl
  | ok fp =>
      dsimp only
      cases deps.invoke fp with
      | error e => rfl
      | ok raw =>
          dsimp only
          cases deps.parse (selectText raw) <;> rfl

/-- C7: artifact defaults. Without an uploaded file the handler formats the
prompt with the file name `no-file` and the kind `unknown`, and the prompt
sent to the LLM contains both literals; with a file whose `originalname` and
`mimetype` are non-empty, the prompt is the same text with exactly these two
values in the places of the two defaults. -/
theorem artifact_defaults (instr : String) (llm : String → Except JsError JsVal)
    (prompt : Option String) :
    ∃ a b c : String,
      (runHandler (appDeps instr llm) { prompt := prompt, file := none }).head? =
        some (.formatCalled prompt "no-file" "unknown") ∧
      llmCalls (runHandler (appDeps instr llm) { prompt := prompt, file := none }) =
        [a ++ "no-file" ++ b ++ "unknown" ++ c] ∧
      ∀ f : MulterFile, f.originalname ≠ "" → f.mimetype ≠ "" →
        (runHandler (appDeps instr llm) { prompt := prompt, file := some f }).head? =
          some (.formatCalled prompt f.originalname f.mimetype) ∧
        llmCalls (runHandler (appDeps instr llm) { prompt := prompt, file := some f }) =
          [a ++ f.originalname ++ b ++ f.mimetype ++ c] := by
  refine ⟨templateIntro, "\" (",
    ")\n- User brief: \"" ++ prompt.getD "undefined" ++ rulesBlock ++ instr ++ "\n", ?_, ?_, ?_⟩
  · rw [head_runHandler]; rfl
  · rw [llmCalls_app]
    simp only [promptContext, fileNameOf, fileTypeOf, orDefault, Option.map,
      String.append_assoc]
  · intro f h1 h2
    refine ⟨?_, ?_⟩
    · rw [head_runHandler]
      simp only [fileNameOf, fileTypeOf, orDefault, Option.map, if_neg h1, if_neg h2]
    · rw [llmCalls_app]
      simp only [promptContext, fileNameOf, fileTypeOf, orDefault, Option.map, if_neg h1,
        if_neg h2, String.append_assoc]

/-- C7 for the brief of scenario 1 and an uploaded PNG: the prompt that names
the file is the default prompt with the two values exchanged. -/
theorem artifact_defaults_witness :
    ∃ a b c : String,
      llmCalls (runHandler (appDeps "FORMAT" (fun _ => .error (.error "unavailable")))
        { prompt := some "Evaluate login form accessibility", file := none }) =
        [a ++ "no-file" ++ b ++ "unknown" ++ c] ∧
      llmCalls (runHandler (appDeps "FORMAT" (fun _ => .error (.error "unavailable")))
        { prompt := some "Evaluate login form accessibility",
          file := some { originalname := "login.png", mimetype := "image/png" } }) =
        [a ++ "login.png" ++ b ++ "image/png" ++ c] := by
  obtain ⟨a, b, c, _, h2, h3⟩ := artifact_defaults "FORMAT"
    (fun _ => .error (.error "unavailable")) (some "Evaluate login form accessibility")
  exact ⟨a, b, c, h2,
    (h3 { originalname := "login.png", mimetype := "image/png" } (by decide) (by decide)).2⟩

/-! ## The empty brief -/

set_option maxRecDepth 100000 in
/-- C8, counterexample: with the instruction block `FORMAT` the rendered
prompt does not end with the instruction block: it ends with the block and a
line feed. -/
theorem prompt_does_not_end_with_instructions :
    ∃ p : String,
      promptTpl.format "FORMAT" (some "Evaluate login form accessibility") "no-file" "unknown"
        = .ok p ∧
      ¬ "FORMAT".data <:+ p.data ∧ "FORMAT\n".data <:+ p.data :=
  ⟨_, format_eq _ _ _ _, by decide, by decide⟩

set_option maxRecDepth 100000 in
/-- C8, amended: the rendered prompt is the contextual part, then the
instruction block, then one line feed and nothing else; the file name, the
file kind, the brief and every rule line occur in the contextual part, before
the instruction block. -/
theorem instructions_come_last (instr : String) (brief : Option String)
    (fileName fileType : String) :
    ∃ context : String,
      promptTpl.format instr brief fileName fileType = .ok (context ++ instr ++ "\n") ∧
      (∃ a b, context = a ++ fileName ++ b) ∧ (∃ a b, context = a ++ fileType ++ b) ∧
      (∃ a b, context = a ++ brief.getD "undefined" ++ b) ∧
      ∀ rule ∈ ruleLines, ∃ a b, context = a ++ rule ++ b := by
  refine ⟨promptContext brief fileName fileType, format_eq _ _ _ _, ?_, ?_, ?_, ?_⟩
  · exact ⟨templateIntro, "\" (" ++ fileType ++ ")\n- User brief: \"" ++
      brief.getD "undefined" ++ rulesBlock, by simp only [promptContext, String.append_assoc]⟩
  · exact ⟨templateIntro ++ fileName ++ "\" (", ")\n- User brief: \"" ++
      brief.getD "undefined" ++ rulesBlock, by simp only [promptContext, String.append_assoc]⟩
  · exact ⟨templateIntro ++ fileName ++ "\" (" ++ fileType ++ ")\n- User brief: \"",
      rulesBlock, by simp only [promptContext, String.append_assoc]⟩
  · intro rule hrule
    have hjoin : rulesBlock = "\"\n\nRules:\n" ++ ("- Be concise but actionable.\n" ++
        ("- Consider visual hierarchy, typography, color, accessibility, usability.\n" ++
        ("- Include emotional/brand feel and product value alignment.\n" ++
        ("- Respond in the exact JSON format described below. No extra text.\n" ++ "\n")))) := by
      decide
    simp only [ruleLines, List.mem_cons, List.mem_singleton, List.not_mem_nil, or_false] at hrule
    rcases hrule with rfl | rfl | rfl | rfl
    · exact ⟨templateIntro ++ fileName ++ "\" (" ++ fileType ++ ")\n- User brief: \"" ++
        brief.getD "undefined" ++ "\"\n\nRules:\n",
        "- Consider visual hierarchy, typography, color, accessibility, usability.\n" ++
        ("- Include emotional/brand feel and product value alignment.\n" ++
        ("- Respond in the exact JSON format described below. No extra text.\n" ++ "\n")), by
          simp only [promptContext, hjoin, String.append_assoc]⟩
    · exact ⟨templateIntro ++ fileName ++ "\" (" ++ fileType ++ ")\n- User brief: \"" ++
        brief.getD "undefined" ++ "\"\n\nRules:\n" ++ "- Be concise but actionable.\n",
        "- Include emotional/brand feel and product value alignment.\n" ++
        ("- Respond in the exact JSON format described below. No extra text.\n" ++ "\n"), by
          simp only [promptContext, hjoin, String.append_assoc]⟩
    · exact ⟨templateIntro ++ fileName ++ "\" (" ++ fileType ++ ")\n- User brief: \"" ++
        brief.getD "undefined" ++ "\"\n\nRules:\n" ++ "- Be concise but actionable.\n" ++
        "- Consider visual hierarchy, typography, color, accessibility, usability.\n",
        "- Respond in the exact JSON format described below. No extra text.\n" ++ "\n", by
          simp only [promptContext, hjoin, String.append_assoc]⟩
    · exact ⟨templateIntro ++ fileName ++ "\" (" ++ fileType ++ ")\n- User brief: \"" ++
        brief.getD "undefined" ++ "\"\n\nRules:\n" ++ "- Be concise but actionable.\n" ++
        "- Consider visual hierarchy, typography, color, accessibility, usability.\n" ++
        "- Include emotional/brand feel and product value alignment.\n", "\n", by
          simp only [promptContext, hjoin, String.append_assoc]⟩

/-! ## JSON.parse after JSON.stringify -/

/-- Two hexadecimal digits written by `hexDigitChar` read back. -/
theorem hex4_control : ∀ n, n < 32 →
    hex4 '0' '0' (hexDigitChar (n / 16)) (hexDigitChar (n % 16)) = some n := by
  decide

/-- A character is determined by its code. -/
theorem char_eq_of_toNat {c : Char} {n : Nat} (h : c.toNat = n) : c = Char.ofNat n := by
  rw [← h, Char.ofNat_toNat]

/-- Reading back the escaped form of one character. -/
theorem parseStringBody_quoteChar (c : Char) (rest : List Char) :
    parseStringBody (quoteChar c ++ rest) =
      (parseStringBody rest).map (fun r => (c :: r.1, r.2)) := by
  unfold quoteChar
  split
  · rename_i h; subst h; rw [parseStringBody.eq_def]; simp [unescape]
  · split
    · rename_i h; subst h; rw [parseStringBody.eq_def]; simp [unescape]
    · split
      · rename_i h; rw [char_eq_of_toNat h, parseStringBody.eq_def]; simp [unescape]
      · split
        · rename_i h; rw [char_eq_of_toNat h, parseStringBody.eq_def]; simp [unescape]
        · split
          · rename_i h; rw [char_eq_of_toNat h, parseStringBody.eq_def]; simp [unescape]
          · split
            · rename_i h; rw [char_eq_of_toNat h, parseStringBody.eq_def]; simp [unescape]
            · split
              · rename_i h; rw [char_eq_of_toNat h, parseStringBody.eq_def]; simp [unescape]
              · split
                · rename_i h
                  have hx := hex4_control c.toNat h
                  rw [parseStringBody.eq_def]
                  simp [hx]
                  omega
                · rename_i h1 h2 _ _ _ _ _ h8
                  rw [parseStringBody.eq_def]
                  simp [h1, h2, h8]

/-- Reading back the escaped form of a string, up to the closing quote. -/
theorem parseStringBody_quoteBody (cs rest : List Char) :
    parseStringBody (quoteBody cs ++ '"' :: rest) = some (cs, rest) := by
  induction cs with
  | nil => rw [parseStringBody.eq_def]; simp [quoteBody]
  | cons c cs ih =>
      simp only [quoteBody, List.append_assoc]
      rw [parseStringBody_quoteChar, ih]
      rfl

/-- The text of a quoted string, with the text after it. -/
theorem quoteJSONString_append (s : String) (rest : List Char) :
    quoteJSONString s ++ rest = '"' :: (quoteBody s.data ++ '"' :: rest) := by
  simp [quoteJSONString]

/-- Parsing a quoted string gives the string back. -/
theorem parseValue_string (f : Nat) (hf : 1 ≤ f) (s : String) (rest : List Char) :
    parseValue f (quoteJSONString s ++ rest) = some (.str s, rest) := by
  obtain ⟨g, rfl⟩ : ∃ g, f = g + 1 := ⟨f - 1, by omega⟩
  rw [quoteJSONString_append, parseValue]
  simp [parseStringBody_quoteBody]

/-- The value of a run of digits with one more digit. -/
theorem digitsVal_append_single (l : List Char) (c : Char) :
    digitsVal (l ++ [c]) = 10 * digitsVal l + (c.toNat - 48) := by
  simp [digitsVal, List.foldl_append]

/-- The code of a decimal digit character. -/
theorem digitChar_toNat : ∀ k, k < 10 → (Nat.digitChar k).toNat - 48 = k := by decide

/-- A decimal digit character is a digit. -/
theorem isDigit_digitChar : ∀ k, k < 10 → isDigit (Nat.digitChar k) = true := by decide

/-- A decimal digit character is not a line feed. -/
theorem digitChar_ne_newline : ∀ k, k < 10 → Nat.digitChar k ≠ '\n' := by decide

/-- The value of the last `d` digits of `n`. -/
theorem digitsVal_fixedDigits (d : Nat) : ∀ n, digitsVal (fixedDigits d n) = n % 10 ^ d := by
  induction d with
  | zero => intro n; simp [fixedDigits, digitsVal, Nat.mod_one]
  | succ d ih =>
      intro n
      rw [fixedDigits, digitsVal_append_single, ih,
        digitChar_toNat _ (Nat.mod_lt _ (by norm_num)), pow_succ, Nat.mul_comm (10 ^ d) 10,
        Nat.mod_mul]
      omega

/-- The number of the last `d` digits. -/
theorem length_fixedDigits (d : Nat) : ∀ n, (fixedDigits d n).length = d := by
  induction d with
  | zero => intro n; rfl
  | succ d ih => intro n; simp [fixedDigits, ih]

/-- The last `d` digits are digits. -/
theorem isDigit_fixedDigits (d : Nat) : ∀ n, ∀ c ∈ fixedDigits d n, isDigit c = true := by
  induction d with
  | zero => intro n c hc; simp [fixedDigits] at hc
  | succ d ih =>
      intro n c hc
      simp only [fixedDigits, List.mem_append, List.mem_singleton] at hc
      rcases hc with hc | rfl
      · exact ih _ c hc
      · exact isDigit_digitChar _ (Nat.mod_lt _ (by norm_num))

/-- The last `d` digits hold no line feed. -/
theorem newline_not_mem_fixedDigits (d n : Nat) : '\n' ∉ fixedDigits d n := by
  intro h
  have := isDigit_fixedDigits d n _ h
  revert this
  decide

/-- A run of digits before another character is taken whole. -/
theorem takeWhile_digits (l : List Char) (hl : ∀ c ∈ l, isDigit c = true) (c : Char)
    (hc : isDigit c = false) (rest : List Char) :
    (l ++ c :: rest).takeWhile isDigit = l ∧ (l ++ c :: rest).dropWhile isDigit = c :: rest := by
  induction l with
  | nil => simp [List.takeWhile_cons, List.dropWhile_cons, hc]
  | cons x l ih =>
      have hx : isDigit x = true := hl x (List.mem_cons_self _ _)
      have := ih (fun y hy => hl y (List.mem_cons_of_mem _ hy))
      simp [List.takeWhile_cons, List.dropWhile_cons, hx, this.1, this.2]

/-- A fraction scaled by a power of ten that its denominator divides. -/
theorem scaled_eq_cast (n den d m : Nat) (x : ℚ) (hden : den ≠ 0)
    (hx : x = (n : ℚ) / (den : ℚ)) (hmul : m * den = n * 10 ^ d) :
    x * (10 : ℚ) ^ d = (m : ℚ) := by
  have hd : (den : ℚ) ≠ 0 := by exact_mod_cast hden
  have h1 : (m : ℚ) * (den : ℚ) = (n : ℚ) * (10 : ℚ) ^ d := by exact_mod_cast hmul
  rw [hx]
  field_simp
  linarith

/-- The text of a score: the digits of its whole part, which is at most 10,
and for `d` fraction digits a point and the `d` digits of the fraction. -/
theorem numberToString_score (x : ℚ) (hx : inScoreRange x) (t : List Char)
    (ht : numberToString x = some t) :
    ∃ ip d f : Nat, ip ≤ 10 ∧ f < 10 ^ d ∧ x = (ip : ℚ) + (f : ℚ) / (10 : ℚ) ^ d ∧
      t = Nat.toDigits 10 ip ++ (if d = 0 then [] else '.' :: fixedDigits d f) := by
  obtain ⟨h0, h10⟩ := hx
  unfold numberToString at ht
  cases hfd : fractionDigits x with
  | none => simp [hfd] at ht
  | some d =>
      simp only [hfd] at ht
      split at ht
      · cases ht
      · have hn0 : 0 ≤ x.num := Rat.num_nonneg.mpr h0
        have hneg : ¬ x.num < 0 := by omega
        simp only [hneg, if_false, Option.some.injEq] at ht
        have hdvd : (x.num.natAbs * 10 ^ d) % x.den = 0 := by
          have := List.find?_some hfd
          simpa using this
        have hmul : x.num.natAbs * 10 ^ d / x.den * x.den = x.num.natAbs * 10 ^ d :=
          Nat.div_mul_cancel (Nat.dvd_of_mod_eq_zero hdvd)
        have hden : (x.den : ℚ) ≠ 0 := by exact_mod_cast x.den_nz
        have hpow : ((10 : ℚ) ^ d) ≠ 0 := by positivity
        have hnum : (x.num : ℚ) = (x.num.natAbs : ℚ) := by
          have h : ((x.num.natAbs : ℤ) : ℚ) = (x.num : ℚ) := by
            rw [Int.natAbs_of_nonneg hn0]
          rw [← h, Int.cast_natCast]
        have hxm : x * (10 : ℚ) ^ d = ((x.num.natAbs * 10 ^ d / x.den : ℕ) : ℚ) :=
          scaled_eq_cast x.num.natAbs x.den d _ x x.den_nz
            (by rw [← hnum, Rat.num_div_den]) hmul
        have hsplit := Nat.div_add_mod (x.num.natAbs * 10 ^ d / x.den) (10 ^ d)
        refine ⟨x.num.natAbs * 10 ^ d / x.den / 10 ^ d, d,
          x.num.natAbs * 10 ^ d / x.den % 10 ^ d, ?_, Nat.mod_lt _ (by positivity), ?_,
          ht.symm⟩
        · apply Nat.div_le_of_le_mul
          have : ((x.num.natAbs * 10 ^ d / x.den : ℕ) : ℚ) ≤ (10 : ℚ) ^ d * 10 := by
            rw [← hxm]
            nlinarith [pow_pos (show (0 : ℚ) < 10 by norm_num) d]
          exact_mod_cast this
        · have h3 : ((x.num.natAbs * 10 ^ d / x.den : ℕ) : ℚ) =
              (10 : ℚ) ^ d * ((x.num.natAbs * 10 ^ d / x.den / 10 ^ d : ℕ) : ℚ) +
                ((x.num.natAbs * 10 ^ d / x.den % 10 ^ d : ℕ) : ℚ) := by
            exact_mod_cast hsplit.symm
          rw [← hxm] at h3
          field_simp
          linarith

/-- The digits of a whole number up to 10: a non-empty run of digits with the
value of the number and no leading zero. -/
theorem toDigits_small : ∀ ip, ip ≤ 10 →
    Nat.toDigits 10 ip ≠ [] ∧ (∀ c ∈ Nat.toDigits 10 ip, isDigit c = true) ∧
      digitsVal (Nat.toDigits 10 ip) = ip ∧
      ((Nat.toDigits 10 ip).head? = some '0' → Nat.toDigits 10 ip = ['0']) := by
  decide

/-- A digit is none of the characters that start another kind of value. -/
theorem digit_ne_starts (c : Char) (hc : isDigit c = true) :
    c ≠ '"' ∧ c ≠ '[' ∧ c ≠ '{' ∧ c ≠ 't' ∧ c ≠ 'f' ∧ c ≠ 'n' ∧ c ≠ '-' ∧ c ≠ '\n' ∧
      isJsonWs c = false := by
  refine ⟨?_, ?_, ?_, ?_, ?_, ?_, ?_, ?_, ?_⟩ <;>
    first
    | (rintro rfl; revert hc; decide)
    | (simp only [isDigit, Bool.and_eq_true, decide_eq_true_eq] at hc
       simp only [isJsonWs, Bool.or_eq_false_iff, decide_eq_false_iff_not]
       refine ⟨⟨⟨?_, ?_⟩, ?_⟩, ?_⟩ <;> (rintro rfl; revert hc; decide))

/-- The whole part of a number text: a run of digits without a leading zero,
up to the next character. -/
theorem parseInt_digits (l : List Char) (hne : l ≠ []) (hall : ∀ c ∈ l, isDigit c = true)
    (hzero : l.head? = some '0' → l = ['0']) (c2 : Char) (hc2 : isDigit c2 = false)
    (rest : List Char) : parseInt (l ++ c2 :: rest) = some (l, c2 :: rest) := by
  cases l with
  | nil => exact absurd rfl hne
  | cons c l' =>
      have hc : isDigit c = true := hall c (List.mem_cons_self _ _)
      have ht := takeWhile_digits l' (fun y hy => hall y (List.mem_cons_of_mem _ hy)) c2 hc2 rest
      simp only [List.cons_append, parseInt]
      split
      · rename_i h0
        have := hzero (by rw [h0]; rfl)
        simp only [List.cons.injEq] at this
        rw [this.2]
        rfl
      · simp [hc, ht.1, ht.2]

/-- A number text in plain notation, followed by a comma or a closing brace:
the whole part `l`, and for `d` fraction digits a point and the digits `fd`. -/
theorem parseNumber_plain (l : List Char) (hne : l ≠ []) (hall : ∀ c ∈ l, isDigit c = true)
    (hzero : l.head? = some '0' → l = ['0']) (d : Nat) (fd : List Char)
    (hfd : ∀ c ∈ fd, isDigit c = true) (hlen : fd.length = d) (c3 : Char)
    (hc3 : c3 = ',' ∨ c3 = '}') (rest : List Char) :
    parseNumber (l ++ (if d = 0 then [] else '.' :: fd) ++ c3 :: rest) =
      some ((digitsVal l : ℚ) + (digitsVal fd : ℚ) / (10 : ℚ) ^ d, c3 :: rest) := by
  have hd3 : isDigit c3 = false := by rcases hc3 with rfl | rfl <;> decide
  have hexp : parseExp (c3 :: rest) = some (0, c3 :: rest) := by
    rcases hc3 with rfl | rfl <;> simp [parseExp]
  obtain ⟨c, l', rfl⟩ : ∃ c l', l = c :: l' := by
    cases l with
    | nil => exact absurd rfl hne
    | cons c l' => exact ⟨c, l', rfl⟩
  have hcd := digit_ne_starts c (hall c (List.mem_cons_self _ _))
  have hhead : ∀ tail : List Char, (c :: tail).head? = some '-' ↔ False := by
    intro tail
    simp only [List.head?_cons, Option.some.injEq, iff_false]
    exact hcd.2.2.2.2.2.2.1
  by_cases hd : d = 0
  · subst hd
    have hfd0 : fd = [] := List.length_eq_zero.mp hlen
    subst hfd0
    have hpi := parseInt_digits _ hne hall hzero c3 hd3 rest
    simp only [if_true, List.append_nil, List.cons_append] at hpi ⊢
    unfold parseNumber
    simp only [hhead, if_false, hpi]
    have hfrac : parseFrac (c3 :: rest) = some ([], c3 :: rest) := by
      rcases hc3 with rfl | rfl <;> simp [parseFrac]
    simp [hfrac, hexp, digitsVal]
  · have hpi := parseInt_digits _ hne hall hzero '.' (by decide) (fd ++ c3 :: rest)
    simp only [hd, if_false, List.append_assoc, List.cons_append] at hpi ⊢
    unfold parseNumber
    simp only [hhead, if_false, hpi]
    have ht := takeWhile_digits fd hfd c3 hd3 rest
    have hne2 : fd ≠ [] := by
      intro h; rw [h] at hlen; exact hd hlen.symm
    have hfrac : parseFrac ('.' :: (fd ++ c3 :: rest)) = some (fd, c3 :: rest) := by
      simp [parseFrac, ht.1, ht.2, hne2]
    simp [hfrac, hexp, hlen]

/-- Parsing the text of a score that is followed by a comma or a closing
brace gives the score back. -/
theorem parseValue_score (f : Nat) (hf : 1 ≤ f) (x : ℚ) (hx : inScoreRange x) (t : List Char)
    (ht : numberToString x = some t) (c3 : Char) (hc3 : c3 = ',' ∨ c3 = '}')
    (rest : List Char) :
    parseValue f (t ++ c3 :: rest) = some (.num x, c3 :: rest) := by
  obtain ⟨g, rfl⟩ : ∃ g, f = g + 1 := ⟨f - 1, by omega⟩
  obtain ⟨ip, d, fr, hip, hfr, hxeq, rfl⟩ := numberToString_score x hx t ht
  obtain ⟨hne, hall, hval, hzero⟩ := toDigits_small ip hip
  have hnum := parseNumber_plain (Nat.toDigits 10 ip) hne hall hzero d (fixedDigits d fr)
    (isDigit_fixedDigits d fr) (length_fixedDigits d fr) c3 hc3 rest
  rw [hval, digitsVal_fixedDigits, Nat.mod_eq_of_lt hfr, ← hxeq] at hnum
  obtain ⟨c, l', hl⟩ : ∃ c l', Nat.toDigits 10 ip = c :: l' := by
    cases h : Nat.toDigits 10 ip with
    | nil => exact absurd h hne
    | cons c l' => exact ⟨c, l', rfl⟩
  have hcd := digit_ne_starts c (hall c (by rw [hl]; exact List.mem_cons_self _ _))
  rw [hl] at hnum ⊢
  simp only [List.cons_append, List.append_assoc] at hnum ⊢
  rw [parseValue]
  simp only [hcd.1, hcd.2.1, hcd.2.2.1, if_false]
  have hp : ∀ (w : List Char) (tail : List Char), w.head? ≠ some c →
      w ≠ [] → w.isPrefixOf (c :: tail) = false := by
    intro w tail hw hwn
    cases w with
    | nil => exact absurd rfl hwn
    | cons a w' =>
        have : a ≠ c := fun e => hw (by rw [e]; rfl)
        simp [List.isPrefixOf, this]
  rw [hp "true".data _ (by simpa using fun e => hcd.2.2.2.1 e.symm) (by decide),
    hp "false".data _ (by simpa using fun e => hcd.2.2.2.2.1 e.symm) (by decide),
    hp "null".data _ (by simpa using fun e => hcd.2.2.2.2.2.1 e.symm) (by decide)]
  simp [hnum]

/-- Joining at least two parts, with text after them. -/
theorem joinComma_cons_cons_append (x y : List Char) (l : List (List Char))
    (t : List Char) :
    joinComma (x :: y :: l) ++ t = x ++ ',' :: (joinComma (y :: l) ++ t) := by
  simp [joinComma]

/-- Joining one part, with text after it. -/
theorem joinComma_singleton_append (x t : List Char) : joinComma [x] ++ t = x ++ t := rfl

/-- The parts written for an array of strings. -/
theorem stringifyElems_strings (ss : List String) :
    stringifyElems (ss.map JsVal.str) = some (ss.map quoteJSONString) := by
  induction ss with
  | nil => rfl
  | cons s ss ih => simp [stringifyElems, JSON.stringify, ih]

/-- A quoted string starts with a quote, which is not JSON white space. -/
theorem skipWs_quoted (s : String) (rest : List Char) :
    skipWs (quoteJSONString s ++ rest) = quoteJSONString s ++ rest := by
  rw [quoteJSONString_append]
  simp [skipWs, isJsonWs]

/-- Joined parts that begin with a quoted string start with a quote. -/
theorem skipWs_joinComma_quoted (s : String) (l : List (List Char)) (rest : List Char) :
    skipWs (joinComma (quoteJSONString s :: l) ++ rest) =
      joinComma (quoteJSONString s :: l) ++ rest := by
  cases l with
  | nil => exact skipWs_quoted s rest
  | cons y l => rw [joinComma_cons_cons_append]; exact skipWs_quoted s _

/-- Parsing the elements of a non-empty array of strings. -/
theorem parseElements_quoted (ss : List String) (s : String) (f : Nat)
    (hf : ss.length + 2 ≤ f) (rest : List Char) :
    parseElements f (joinComma ((s :: ss).map quoteJSONString) ++ ']' :: rest) =
      some ((s :: ss).map JsVal.str, rest) := by
  induction ss generalizing s f with
  | nil =>
      obtain ⟨g, rfl⟩ : ∃ g, f = g + 1 := ⟨f - 1, by simp at hf; omega⟩
      simp only [List.map_cons, List.map_nil, joinComma_singleton_append]
      rw [parseElements, parseValue_string g (by simp at hf; omega)]
      simp [skipWs, isJsonWs]
  | cons s2 ss ih =>
      obtain ⟨g, rfl⟩ : ∃ g, f = g + 1 := ⟨f - 1, by simp at hf; omega⟩
      simp only [List.map_cons, joinComma_cons_cons_append]
      rw [parseElements, parseValue_string g (by simp at hf; omega)]
      have ih2 := ih s2 g (by simp at hf; omega)
      simp only [List.map_cons] at ih2
      have h1 : skipWs (',' :: (joinComma (quoteJSONString s2 :: List.map quoteJSONString ss)
          ++ ']' :: rest)) = ',' :: (joinComma (quoteJSONString s2 :: List.map quoteJSONString ss)
          ++ ']' :: rest) := by simp [skipWs, isJsonWs]
      simp only [h1, if_true, skipWs_joinComma_quoted, ih2, Option.map]

/-- Joined parts that begin with a quoted string: the first character. -/
theorem joinComma_quoted_head (s : String) (l : List (List Char)) (rest : List Char) :
    ∃ tail, joinComma (quoteJSONString s :: l) ++ rest = '"' :: tail := by
  cases l with
  | nil => exact ⟨_, by rw [joinComma_singleton_append, quoteJSONString_append]⟩
  | cons y l => exact ⟨_, by rw [joinComma_cons_cons_append, quoteJSONString_append]⟩

/-- Parsing the text of an array of strings gives the array back. -/
theorem parseValue_string_array (ss : List String) (f : Nat) (hf : ss.length + 3 ≤ f)
    (rest : List Char) :
    parseValue f ('[' :: (joinComma (ss.map quoteJSONString) ++ ']' :: rest)) =
      some (.arr (ss.map JsVal.str), rest) := by
  obtain ⟨g, rfl⟩ : ∃ g, f = g + 1 := ⟨f - 1, by omega⟩
  cases ss with
  | nil => simp [parseValue, joinComma, skipWs, isJsonWs]
  | cons s ss =>
      have h := parseElements_quoted ss s g (by simp at hf; omega) rest
      have hsk := skipWs_joinComma_quoted s (ss.map quoteJSONString) (']' :: rest)
      obtain ⟨tail, ht⟩ := joinComma_quoted_head s (ss.map quoteJSONString) (']' :: rest)
      simp only [List.map_cons] at h hsk ⊢
      rw [parseValue]
      simp only [hsk]
      rw [ht] at h ⊢
      simp [h]

/-- A colon, a comma and the closing brackets are not JSON white space. -/
theorem skipWs_punct (c : Char) (hc : c = ':' ∨ c = ',' ∨ c = '}' ∨ c = ']')
    (rest : List Char) : skipWs (c :: rest) = c :: rest := by
  rcases hc with rfl | rfl | rfl | rfl <;> simp [skipWs, isJsonWs]

/-- One member of an object that is followed by a comma: the property is
defined and parsing goes on after the comma. `whole` is the text from the
value on. -/
theorem parseMembers_comma (f : Nat) (hf : 1 ≤ f) (acc : List (String × JsVal))
    (key : String) (whole : List Char) (v : JsVal) (tail : List Char)
    (hns : skipWs whole = whole)
    (hv : parseValue (f - 1) whole = some (v, ',' :: tail)) :
    parseMembers f acc (quoteJSONString key ++ ':' :: whole) =
      parseMembers (f - 1) (setField acc key v) (skipWs tail) := by
  obtain ⟨g, rfl⟩ : ∃ g, f = g + 1 := ⟨f - 1, by omega⟩
  simp only [Nat.add_sub_cancel] at hv ⊢
  rw [quoteJSONString_append, parseMembers]
  simp only [parseStringBody_quoteBody, skipWs_punct ':' (Or.inl rfl), hns, hv,
    skipWs_punct ',' (Or.inr (Or.inl rfl)), if_true]

/-- The last member of an object, followed by the closing brace. -/
theorem parseMembers_last (f : Nat) (hf : 1 ≤ f) (acc : List (String × JsVal))
    (key : String) (whole : List Char) (v : JsVal) (tail : List Char)
    (hns : skipWs whole = whole)
    (hv : parseValue (f - 1) whole = some (v, '}' :: tail)) :
    parseMembers f acc (quoteJSONString key ++ ':' :: whole) =
      some (setField acc key v, tail) := by
  obtain ⟨g, rfl⟩ : ∃ g, f = g + 1 := ⟨f - 1, by omega⟩
  simp only [Nat.add_sub_cancel] at hv ⊢
  rw [quoteJSONString_append, parseMembers]
  simp only [parseStringBody_quoteBody, skipWs_punct ':' (Or.inl rfl), hns, hv,
    skipWs_punct '}' (Or.inr (Or.inr (Or.inl rfl))), if_true]
  simp

/-- The text of a score starts with a digit, which is not JSON white space. -/
theorem skipWs_score (x : ℚ) (hx : inScoreRange x) (t : List Char)
    (ht : numberToString x = some t) (rest : List Char) :
    skipWs (t ++ rest) = t ++ rest := by
  obtain ⟨ip, d, fr, hip, _, _, rfl⟩ := numberToString_score x hx t ht
  obtain ⟨hne, hall, _, _⟩ := toDigits_small ip hip
  cases h : Nat.toDigits 10 ip with
  | nil => exact absurd h hne
  | cons c l' =>
      have hc := (digit_ne_starts c (hall c (by rw [h]; exact List.mem_cons_self _ _))).2.2.2.2.2.2.2.2
      simp [skipWs, List.dropWhile_cons, hc]

/-- A score member followed by a comma. -/
theorem parseMembers_score_comma (f : Nat) (hf : 2 ≤ f) (acc : List (String × JsVal))
    (key : String) (x : ℚ) (hx : inScoreRange x) (t : List Char)
    (ht : numberToString x = some t) (tail : List Char) :
    parseMembers f acc (quoteJSONString key ++ ':' :: (t ++ ',' :: tail)) =
      parseMembers (f - 1) (setField acc key (.num x)) (skipWs tail) :=
  parseMembers_comma f (by omega) acc key _ (.num x) tail (skipWs_score x hx t ht _)
    (parseValue_score (f - 1) (by omega) x hx t ht ',' (Or.inl rfl) tail)

/-- A string member followed by a comma. -/
theorem parseMembers_string_comma (f : Nat) (hf : 2 ≤ f) (acc : List (String × JsVal))
    (key s : String) (tail : List Char) :
    parseMembers f acc (quoteJSONString key ++ ':' :: (quoteJSONString s ++ ',' :: tail)) =
      parseMembers (f - 1) (setField acc key (.str s)) (skipWs tail) :=
  parseMembers_comma f (by omega) acc key _ (.str s) tail (skipWs_quoted s _)
    (parseValue_string (f - 1) (by omega) s _)

/-- A string member followed by the closing brace. -/
theorem parseMembers_string_last (f : Nat) (hf : 2 ≤ f) (acc : List (String × JsVal))
    (key s : String) (tail : List Char) :
    parseMembers f acc (quoteJSONString key ++ ':' :: (quoteJSONString s ++ '}' :: tail)) =
      some (setField acc key (.str s), tail) :=
  parseMembers_last f (by omega) acc key _ (.str s) tail (skipWs_quoted s _)
    (parseValue_string (f - 1) (by omega) s _)

/-- The text of a scores object: the texts of its five scores exist. -/
theorem stringify_scores (s : Scores) (text : List Char)
    (h : JSON.stringify s.toJs = some text) :
    ∃ t1 t2 t3 t4 t5, numberToString s.visual_hierarchy = some t1 ∧
      numberToString s.typography = some t2 ∧ numberToString s.color = some t3 ∧
      numberToString s.accessibility = some t4 ∧ numberToString s.usability = some t5 ∧
      ∀ rest, text ++ rest = scoresText t1 t2 t3 t4 t5 s.emotional_tone rest := by
  simp only [Scores.toJs, JSON.stringify, stringifyFields] at h
  cases h1 : numberToString s.visual_hierarchy with
  | none => simp [h1] at h
  | some t1 =>
    cases h2 : numberToString s.typography with
    | none => simp [h1, h2] at h
    | some t2 =>
      cases h3 : numberToString s.color with
      | none => simp [h1, h2, h3] at h
      | some t3 =>
        cases h4 : numberToString s.accessibility with
        | none => simp [h1, h2, h3, h4] at h
        | some t4 =>
          cases h5 : numberToString s.usability with
          | none => simp [h1, h2, h3, h4, h5] at h
          | some t5 =>
            refine ⟨t1, t2, t3, t4, t5, rfl, rfl, rfl, rfl, rfl, ?_⟩
            intro rest
            simp only [h1, h2, h3, h4, h5, Option.map, Option.some.injEq] at h
            subst h
            simp only [scoresText, joinComma, List.append_assoc, List.cons_append,
              List.nil_append]

/-- An object whose first member starts right after the brace: its value is
the object of the parsed members. -/
theorem parseValue_object (f : Nat) (hf : 1 ≤ f) (k : String) (tl : List Char) :
    parseValue f ('{' :: (quoteJSONString k ++ tl)) =
      (parseMembers (f - 1) [] (quoteJSONString k ++ tl)).map
        (fun r => (JsVal.obj r.1, r.2)) := by
  obtain ⟨g, rfl⟩ : ∃ g, f = g + 1 := ⟨f - 1, by omega⟩
  rw [parseValue, quoteJSONString_append]
  have hsk : ∀ tail, skipWs ('"' :: tail) = '"' :: tail := by
    intro tail; simp [skipWs, isJsonWs]
  simp [hsk]

/-- Parsing the text of a scores object gives the object back. -/
theorem parseValue_scores (s : Scores) (f : Nat) (hf : 8 ≤ f) (t1 t2 t3 t4 t5 : List Char)
    (h1 : numberToString s.visual_hierarchy = some t1) (r1 : inScoreRange s.visual_hierarchy)
    (h2 : numberToString s.typography = some t2) (r2 : inScoreRange s.typography)
    (h3 : numberToString s.color = some t3) (r3 : inScoreRange s.color)
    (h4 : numberToString s.accessibility = some t4) (r4 : inScoreRange s.accessibility)
    (h5 : numberToString s.usability = some t5) (r5 : inScoreRange s.usability)
    (rest : List Char) :
    parseValue f (scoresText t1 t2 t3 t4 t5 s.emotional_tone rest) = some (s.toJs, rest) := by
  unfold scoresText
  rw [parseValue_object f (by omega),
    parseMembers_score_comma (f - 1) (by omega) _ _ _ r1 _ h1, skipWs_quoted,
    parseMembers_score_comma (f - 1 - 1) (by omega) _ _ _ r2 _ h2, skipWs_quoted,
    parseMembers_score_comma (f - 1 - 1 - 1) (by omega) _ _ _ r3 _ h3, skipWs_quoted,
    parseMembers_score_comma (f - 1 - 1 - 1 - 1) (by omega) _ _ _ r4 _ h4, skipWs_quoted,
    parseMembers_score_comma (f - 1 - 1 - 1 - 1 - 1) (by omega) _ _ _ r5 _ h5, skipWs_quoted,
    parseMembers_string_last (f - 1 - 1 - 1 - 1 - 1 - 1) (by omega)]
  simp [setField, Scores.toJs]

/-- The text of a review: the texts of its five scores exist, and the text is
the serialization written field by field. -/
theorem stringify_review (r : Review) (text : List Char)
    (h : JSON.stringify r.toJs = some text) :
    ∃ t1 t2 t3 t4 t5, numberToString r.scores.visual_hierarchy = some t1 ∧
      numberToString r.scores.typography = some t2 ∧ numberToString r.scores.color = some t3 ∧
      numberToString r.scores.accessibility = some t4 ∧
      numberToString r.scores.usability = some t5 ∧
      ∀ rest, text ++ rest =
        reviewText r (scoresText t1 t2 t3 t4 t5 r.scores.emotional_tone) rest := by
  simp only [Review.toJs, Scores.toJs, JSON.stringify, stringifyFields,
    stringifyElems_strings] at h
  cases h1 : numberToString r.scores.visual_hierarchy with
  | none => simp [h1] at h
  | some t1 =>
    cases h2 : numberToString r.scores.typography with
    | none => simp [h1, h2] at h
    | some t2 =>
      cases h3 : numberToString r.scores.color with
      | none => simp [h1, h2, h3] at h
      | some t3 =>
        cases h4 : numberToString r.scores.accessibility with
        | none => simp [h1, h2, h3, h4] at h
        | some t4 =>
          cases h5 : numberToString r.scores.usability with
          | none => simp [h1, h2, h3, h4, h5] at h
          | some t5 =>
            refine ⟨t1, t2, t3, t4, t5, rfl, rfl, rfl, rfl, rfl, ?_⟩
            intro rest
            simp only [h1, h2, h3, h4, h5, Option.map, Option.some.injEq] at h
            subst h
            simp only [reviewText, scoresText, joinComma, List.append_assoc, List.cons_append,
              List.nil_append]

/-- An array member followed by a comma. -/
theorem parseMembers_array_comma (f : Nat) (ss : List String) (hf : ss.length + 4 ≤ f)
    (acc : List (String × JsVal)) (key : String) (tail : List Char) :
    parseMembers f acc (quoteJSONString key ++ ':' ::
        ('[' :: (joinComma (ss.map quoteJSONString) ++ ']' :: ',' :: tail))) =
      parseMembers (f - 1) (setField acc key (.arr (ss.map JsVal.str))) (skipWs tail) :=
  parseMembers_comma f (by omega) acc key _ _ tail (by simp [skipWs, isJsonWs])
    (parseValue_string_array ss (f - 1) (by omega) _)

/-- An array member followed by the closing brace. -/
theorem parseMembers_array_last (f : Nat) (ss : List String) (hf : ss.length + 4 ≤ f)
    (acc : List (String × JsVal)) (key : String) (tail : List Char) :
    parseMembers f acc (quoteJSONString key ++ ':' ::
        ('[' :: (joinComma (ss.map quoteJSONString) ++ ']' :: '}' :: tail))) =
      some (setField acc key (.arr (ss.map JsVal.str)), tail) :=
  parseMembers_last f (by omega) acc key _ _ tail (by simp [skipWs, isJsonWs])
    (parseValue_string_array ss (f - 1) (by omega) _)

/-- Parsing the text of a review gives the object of the review back. -/
theorem parseValue_review (r : Review) (f : Nat) (t1 t2 t3 t4 t5 : List Char)
    (hf : r.priority_fixes.length + r.suggestions.length + 12 ≤ f)
    (h1 : numberToString r.scores.visual_hierarchy = some t1)
    (r1 : inScoreRange r.scores.visual_hierarchy)
    (h2 : numberToString r.scores.typography = some t2) (r2 : inScoreRange r.scores.typography)
    (h3 : numberToString r.scores.color = some t3) (r3 : inScoreRange r.scores.color)
    (h4 : numberToString r.scores.accessibility = some t4)
    (r4 : inScoreRange r.scores.accessibility)
    (h5 : numberToString r.scores.usability = some t5) (r5 : inScoreRange r.scores.usability)
    (rest : List Char) :
    parseValue f (reviewText r (scoresText t1 t2 t3 t4 t5 r.scores.emotional_tone) rest) =
      some (r.toJs, rest) := by
  unfold reviewText
  rw [parseValue_object f (by omega),
    parseMembers_string_comma (f - 1) (by omega), skipWs_quoted,
    parseMembers_comma (f - 1 - 1) (by omega) _ _ _ r.scores.toJs _
      (by simp [scoresText, skipWs, isJsonWs])
      (parseValue_scores r.scores (f - 1 - 1 - 1) (by omega) t1 t2 t3 t4 t5
        h1 r1 h2 r2 h3 r3 h4 r4 h5 r5 _),
    skipWs_quoted,
    parseMembers_string_comma (f - 1 - 1 - 1) (by omega), skipWs_quoted,
    parseMembers_array_comma (f - 1 - 1 - 1 - 1) _ (by omega), skipWs_quoted,
    parseMembers_array_last (f - 1 - 1 - 1 - 1 - 1) _ (by omega)]
  simp [setField, Review.toJs]

/-- The joined text of quoted strings has at least one character per string. -/
theorem length_le_joinComma_quoted (ss : List String) :
    ss.length ≤ (joinComma (ss.map quoteJSONString)).length := by
  induction ss with
  | nil => simp
  | cons s ss ih =>
      cases ss with
      | nil => simp [joinComma, quoteJSONString]
      | cons s2 l =>
          simp only [List.map_cons, joinComma, List.length_append, List.length_cons] at ih ⊢
          omega

/-- The text of a review is longer than the fuel its parsing needs. -/
theorem fuel_le_length_reviewText (r : Review) (t1 t2 t3 t4 t5 rest : List Char) :
    r.priority_fixes.length + r.suggestions.length + 12 ≤
      (reviewText r (scoresText t1 t2 t3 t4 t5 r.scores.emotional_tone) rest).length + 1 := by
  have h1 := length_le_joinComma_quoted r.priority_fixes
  have h2 := length_le_joinComma_quoted r.suggestions
  simp only [reviewText, scoresText, List.length_append, List.length_cons]
  omega

/-- The function `JSON.parse` on the text `JSON.stringify` writes for a review
within the bounds gives the object of the review back. -/
theorem parse_stringify_review (r : Review) (hv : r.Valid) (text : List Char)
    (h : JSON.stringify r.toJs = some text) : JSON.parse text = some r.toJs := by
  obtain ⟨t1, t2, t3, t4, t5, h1, h2, h3, h4, h5, ht⟩ := stringify_review r text h
  obtain ⟨r1, r2, r3, r4, r5, _, _⟩ := hv
  have hte := ht []
  rw [List.append_nil] at hte
  have hfuel := fuel_le_length_reviewText r t1 t2 t3 t4 t5 []
  have hsk : skipWs text = text := by
    rw [hte]; simp [reviewText, skipWs, isJsonWs]
  unfold JSON.parse
  rw [hsk]
  have hp := parseValue_review r (text.length + 1) t1 t2 t3 t4 t5 (by rw [hte]; exact hfuel)
    h1 r1 h2 r2 h3 r3 h4 r4 h5 r5 []
  rw [← hte] at hp
  rw [hp]
  simp [skipWs]

/-! ## The text steps of the parser on a serialization -/

/-- The scan of a quoted run splits the text at its closing quote. -/
theorem scanQuoted_eq_aux (n : Nat) : ∀ (cs body after : List Char), cs.length ≤ n →
    scanQuoted cs = some (body, after) → cs = body ++ '"' :: after := by
  induction n with
  | zero =>
      intro cs body after hl h
      cases cs with
      | nil => simp [scanQuoted] at h
      | cons c rest => simp at hl
  | succ n ih =>
      intro cs body after hl h
      rw [scanQuoted.eq_def] at h
      cases cs with
      | nil => simp at h
      | cons c rest =>
          simp only at h
          split at h
          · rename_i hc
            simp only [Option.some.injEq, Prod.mk.injEq] at h
            obtain ⟨rfl, rfl⟩ := h
            rw [hc]; rfl
          · split at h
            · rename_i hb
              cases rest with
              | nil => simp at h
              | cons e rest2 =>
                  simp only at h
                  split at h
                  · cases h
                  · cases hs : scanQuoted rest2 with
                    | none => simp [hs] at h
                    | some r =>
                        simp only [hs, Option.map, Option.some.injEq, Prod.mk.injEq] at h
                        obtain ⟨rfl, rfl⟩ := h
                        have := ih rest2 r.1 r.2 (by simp at hl; omega) (by rw [hs])
                        rw [this]; simp
            · cases hs : scanQuoted rest with
              | none => simp [hs] at h
              | some r =>
                  simp only [hs, Option.map, Option.some.injEq, Prod.mk.injEq] at h
                  obtain ⟨rfl, rfl⟩ := h
                  have := ih rest r.1 r.2 (by simp at hl; omega) (by rw [hs])
                  rw [this]; simp

/-- The scan of a quoted run splits the text at its closing quote. -/
theorem scanQuoted_eq (cs body after : List Char) (h : scanQuoted cs = some (body, after)) :
    cs = body ++ '"' :: after :=
  scanQuoted_eq_aux cs.length cs body after (Nat.le_refl _) h

/-- Text without line feeds is left as it is by the inner replacement. -/
theorem escapeLineFeeds_id (cs : List Char) (h : '\n' ∉ cs) : escapeLineFeeds cs = cs := by
  induction cs with
  | nil => rfl
  | cons c rest ih =>
      simp only [List.mem_cons, not_or] at h
      have hc : c ≠ '\n' := fun e => h.1 e.symm
      simp [escapeLineFeeds, hc, ih h.2]

/-- Text without line feeds is left as it is by the replacement over quoted
runs. -/
theorem escapeQuotedAux_id (fuel : Nat) : ∀ cs : List Char, '\n' ∉ cs →
    escapeQuotedAux fuel cs = cs := by
  induction fuel with
  | zero => intro cs _; cases cs <;> rfl
  | succ n ih =>
      intro cs h
      cases cs with
      | nil => rfl
      | cons c rest =>
          simp only [List.mem_cons, not_or] at h
          rw [escapeQuotedAux]
          split
          · rename_i hc
            split
            · rename_i body after hs
              have hr := scanQuoted_eq rest body after hs
              have hb : '\n' ∉ body := fun hm => h.2 (by rw [hr]; simp [hm])
              have ha : '\n' ∉ after := fun hm => h.2 (by rw [hr]; simp [hm])
              rw [escapeLineFeeds_id body hb, ih after ha, hr, hc]
            · rw [ih rest h.2]
          · rw [ih rest h.2]

/-- Text without line feeds is left as it is by the escaping step. -/
theorem escapeJson_id (cs : List Char) (h : '\n' ∉ cs) : escapeJson cs = cs := by
  unfold escapeJson
  rw [escapeQuotedAux_id _ cs h]
  rw [List.filter_eq_self]
  intro c hc
  have : c ≠ '\n' := fun e => h (e ▸ hc)
  simp [this]

/-- A hexadecimal digit is not a line feed. -/
theorem hexDigitChar_ne_newline : ∀ n, n < 16 → hexDigitChar n ≠ '\n' := by decide

/-- The written form of a character holds no line feed. -/
theorem newline_not_mem_quoteChar (c : Char) : '\n' ∉ quoteChar c := by
  unfold quoteChar
  intro h
  split at h
  · simp at h
  · split at h
    · simp at h
    · split at h
      · simp at h
      · split at h
        · simp at h
        · split at h
          · simp at h
          · split at h
            · simp at h
            · split at h
              · simp at h
              · split at h
                · rename_i hlt
                  simp only [List.mem_cons, List.mem_singleton, List.not_mem_nil,
                    or_false] at h
                  rcases h with h | h | h | h | h | h
                  · revert h; decide
                  · revert h; decide
                  · revert h; decide
                  · revert h; decide
                  · exact hexDigitChar_ne_newline (c.toNat / 16) (by omega) h.symm
                  · exact hexDigitChar_ne_newline (c.toNat % 16) (by omega) h.symm
                · rename_i h10 _ _ _
                  simp only [List.mem_singleton] at h
                  exact h10 (by rw [← h]; rfl)

/-- The written form of a string holds no line feed. -/
theorem newline_not_mem_quoteBody (cs : List Char) : '\n' ∉ quoteBody cs := by
  induction cs with
  | nil => simp [quoteBody]
  | cons c rest ih =>
      simp only [quoteBody, List.mem_append, not_or]
      exact ⟨newline_not_mem_quoteChar c, ih⟩

/-- A quoted string holds no line feed. -/
theorem newline_not_mem_quote (s : String) : '\n' ∉ quoteJSONString s := by
  simp only [quoteJSONString, List.mem_cons, List.mem_append, List.mem_singleton,
    List.not_mem_nil, or_false, not_or]
  exact ⟨by decide, newline_not_mem_quoteBody _, by decide⟩

/-- Joined quoted strings hold no line feed. -/
theorem newline_not_mem_joinComma (ss : List String) :
    '\n' ∉ joinComma (ss.map quoteJSONString) := by
  induction ss with
  | nil => simp [joinComma]
  | cons s ss ih =>
      cases ss with
      | nil => simpa [joinComma] using newline_not_mem_quote s
      | cons s2 l =>
          simp only [List.map_cons, joinComma, List.mem_append, List.mem_cons, not_or] at ih ⊢
          exact ⟨newline_not_mem_quote s, by decide, ih⟩

/-- The text of a score holds no line feed. -/
theorem newline_not_mem_score (x : ℚ) (hx : inScoreRange x) (t : List Char)
    (ht : numberToString x = some t) : '\n' ∉ t := by
  obtain ⟨ip, d, fr, hip, _, _, rfl⟩ := numberToString_score x hx t ht
  obtain ⟨_, hall, _, _⟩ := toDigits_small ip hip
  intro hmem
  simp only [List.mem_append] at hmem
  rcases hmem with hmem | hmem
  · exact (digit_ne_starts _ (hall _ hmem)).2.2.2.2.2.2.2.1 rfl
  · split at hmem
    · simp at hmem
    · simp only [List.mem_cons] at hmem
      rcases hmem with hmem | hmem
      · revert hmem; decide
      · exact newline_not_mem_fixedDigits d fr hmem

/-- The serialization of a review within the bounds holds no line feed. -/
theorem newline_not_mem_stringify (r : Review) (hv : r.Valid) (text : List Char)
    (h : JSON.stringify r.toJs = some text) : '\n' ∉ text := by
  obtain ⟨t1, t2, t3, t4, t5, h1, h2, h3, h4, h5, ht⟩ := stringify_review r text h
  obtain ⟨r1, r2, r3, r4, r5, _, _⟩ := hv
  have hte := ht []
  rw [List.append_nil] at hte
  rw [hte]
  have n1 := newline_not_mem_score _ r1 _ h1
  have n2 := newline_not_mem_score _ r2 _ h2
  have n3 := newline_not_mem_score _ r3 _ h3
  have n4 := newline_not_mem_score _ r4 _ h4
  have n5 := newline_not_mem_score _ r5 _ h5
  have q := newline_not_mem_quote
  have j := newline_not_mem_joinComma
  simp only [reviewText, scoresText, List.mem_cons, List.mem_append, List.not_mem_nil,
    or_false, not_or]
  simp [n1, n2, n3, n4, n5, q, j]

/-- No tagged fence in the text: the unanchored fence pattern has no match. -/
theorem matchJsonFence_none (cs : List Char) (h : ¬ (fence ++ "json".data) <:+: cs) :
    matchJsonFence cs = none := by
  induction cs with
  | nil => rfl
  | cons c rest ih =>
      rw [matchJsonFence]
      have hp : (fence ++ "json".data).isPrefixOf (c :: rest) = false := by
        cases hb : (fence ++ "json".data).isPrefixOf (c :: rest) with
        | false => rfl
        | true => exact absurd (List.isPrefixOf_iff_prefix.mp hb).isInfix h
      rw [hp]
      simp only [Bool.false_eq_true, if_false]
      apply ih
      intro hi
      exact h (hi.trans (List.suffix_cons c rest).isInfix)

/-- A serialized object is not changed by `trim`: it starts with a brace and
ends with a brace. -/
theorem jsTrim_braces (body : List Char) :
    jsTrim ('{' :: (body ++ ['}'])) = '{' :: (body ++ ['}']) := by
  have h1 : isJsSpace '{' = false := by decide
  have h2 : isJsSpace '}' = false := by decide
  simp [jsTrim, List.dropWhile_cons, h1, h2]

/-- The text written for an object starts and ends with a brace. -/
theorem stringify_review_braces (r : Review) (text : List Char)
    (h : JSON.stringify r.toJs = some text) : ∃ body, text = '{' :: (body ++ ['}']) := by
  simp only [Review.toJs, JSON.stringify, Option.map_eq_some'] at h
  obtain ⟨parts, _, rfl⟩ := h
  exact ⟨_, rfl⟩

/-- The payload taken from a serialization that holds no tagged fence is the
serialization itself. -/
theorem extractPayload_stringify (r : Review) (text : List Char)
    (h : JSON.stringify r.toJs = some text) (hnf : ¬ (fence ++ "json".data) <:+: text) :
    extractPayload text = text := by
  obtain ⟨body, rfl⟩ := stringify_review_braces r text h
  unfold extractPayload
  rw [jsTrim_braces]
  have h1 : matchFenceAtStart ('{' :: (body ++ ['}'])) = none := by
    simp [matchFenceAtStart, fence, List.isPrefixOf]
  simp only [h1, matchJsonFence_none _ hnf]
  rfl

/-- The parser on the serialization of a review within the bounds, when the
serialization holds no tagged fence: the object of the review. -/
theorem parser_parse_stringify (r : Review) (hv : r.Valid) (text : List Char)
    (h : JSON.stringify r.toJs = some text) (hnf : ¬ (fence ++ "json".data) <:+: text) :
    parser.parse (.str (String.mk text)) = .ok r.toJs := by
  unfold parser.parse
  simp only [extractPayload_stringify r text h hnf,
    escapeJson_id text (newline_not_mem_stringify r hv text h),
    parse_stringify_review r hv text h, validate_toJs r hv]

/-! ## Prose around a fenced payload -/

/-- The text selected from a response whose content is a string. -/
theorem selectText_content_string (s : String) :
    selectText (.obj [("content", .str s)]) = .str s := by
  have e : (JsVal.obj [("content", .str s)]).optGet "content" = .str s := rfl
  unfold selectText
  rw [e]
  have h1 : ((JsVal.str s).optFirst).optGet "text" = .undefined := by
    obtain ⟨cs⟩ := s
    cases cs <;> rfl
  rw [h1]
  rfl

/-- The response of the handler when the LLM answers every prompt with the
same text content. -/
theorem responses_app_content (instr : String) (req : Request) (content : String) :
    responses (runHandler (appDeps instr (fun _ => .ok (.obj [("content", .str content)]))) req)
      = [match parser.parse (.str content) with
         | .ok parsed => { status := 200, body := .success parsed }
         | .error e => { status := 500, body := .failure e }] := by
  rw [runHandler_eq]
  simp only [appDeps, format_eq, selectText_content_string]
  cases parser.parse (.str content) <;> rfl

set_option maxRecDepth 1000000 in
/-- The serialization of the review with empty text fields. -/
theorem stringify_emptyTextReview :
    JSON.stringify emptyTextReview.toJs = some emptyTextSerialization.data := by
  decide

set_option maxRecDepth 1000000 in
/-- The parser on the serialization of the review with empty text fields. -/
theorem parser_parse_emptyText :
    parser.parse (.str emptyTextSerialization) = .ok emptyTextReview.toJs :=
  parser_parse_stringify emptyTextReview emptyTextReview_valid emptyTextSerialization.data
    stringify_emptyTextReview (by decide)

/-- C3, counterexample: a candidate whose `summary` and `product_value` are
the empty string passes validation unchanged, and when the LLM answers with
its serialization the handler returns it with `ok: true`. -/
theorem empty_text_fields_accepted :
    emptyTextReview.summary = "" ∧ emptyTextReview.product_value = "" ∧
    reviewSchema.validate emptyTextReview.toJs = .ok emptyTextReview.toJs ∧
    responses (runHandler
        (appDeps "FORMAT" (fun _ => .ok (.obj [("content", .str emptyTextSerialization)])))
        { prompt := some "Evaluate login form accessibility", file := none }) =
      [{ status := 200, body := .success emptyTextReview.toJs }] := by
  refine ⟨rfl, rfl, validate_toJs emptyTextReview emptyTextReview_valid, ?_⟩
  rw [responses_app_content, parser_parse_emptyText]

end DesignAI
